import Mathlib

/-!
Verification of the `bullgare/quadtree` JavaScript library (`src/qtree.js`).

Shallow embedding conventions:
* JavaScript numbers are modelled as `ℚ` (exact arithmetic; all values the
  library manipulates are produced by `+`, `-`, `/ 2` on the inputs).
* A possibly-absent coordinate (`'x' in item` false, or `undefined`) is
  modelled as `Option ℚ`; any JS comparison `undefined >= a` / `undefined <= a`
  evaluates to `false`, which the helpers `oge` / `ole` reproduce.
* The JS object `storeValidIndices` maps numeric keys to `true`; it is a set
  of backing-store indices whose key iteration order is ascending numeric
  order.  It is modelled as a strictly sorted `List ℕ` with idempotent
  insertion `storeAdd` (so `store[i] = true` is `storeAdd i store`, and the
  `for (var i in index)` iteration is just the list itself).
* `throw new Error(...)` is modelled with `Except String`; a thrown error
  aborts the operation (the partially mutated state after a throw is not
  observable through the embedding, and no claim depends on it).
* `Node` objects have both an `items` array and a `nodes` field (which is
  `undefined` until `divide` runs).  The two constructors `leafN` / `innerN`
  correspond to `nodes` being `undefined` / set; `innerN` keeps an `items`
  list as the JS object does, so the "interior nodes have no items" invariant
  is a provable property, not a modelling assumption.
* Recursive insertion (`Node.insert` / `Node.divide`) terminates in JS because
  `divide` is guarded by `depth < max_depth`.  The embedding makes this
  explicit with a fuel parameter decremented on every recursive call; the
  public entry point supplies `topFuel`, and the adequacy lemmas prove that
  on well-formed trees the fuel is never exhausted, so the fuel is invisible.
-/

set_option maxHeartbeats 1000000

namespace QTree

/-- A rectangle, in the library's `{top, left, bottom, right}` convention:
`top`/`left` is the upper-left corner, `bottom`/`right` the lower-right. -/
structure Rect where
  top : ℚ
  left : ℚ
  bottom : ℚ
  right : ℚ
  deriving DecidableEq, Repr

/-- An original caller-supplied item: it may or may not expose `x` / `y`
(`none` models a missing/undefined coordinate).  Other fields of the JS
object (`w`, `h`, payload) never influence the index and are omitted. -/
structure RawItem where
  x : Option ℚ
  y : Option ℚ
  deriving DecidableEq, Repr

/-- The wrapped item stored inside tree nodes: coordinates plus the
backing-store index `i` (see `itemToIndex` in qtree.js). -/
structure Item where
  x : Option ℚ
  y : Option ℚ
  i : ℕ
  deriving DecidableEq, Repr

/-- JS `a >= b` where `a` may be `undefined` (then the comparison is false). -/
def oge (a : Option ℚ) (b : ℚ) : Bool :=
  match a with
  | some q => b ≤ q
  | none => false

/-- JS `a <= b` where `a` may be `undefined` (then the comparison is false). -/
def ole (a : Option ℚ) (b : ℚ) : Bool :=
  match a with
  | some q => q ≤ b
  | none => false

/-- `pointIsInBounds(x, y, top, left, bottom, right)` from qtree.js:
`x >= left && x <= right && y >= top && y <= bottom`, inclusive edges. -/
def pointIsInBounds (x y : Option ℚ) (top left bottom right : ℚ) : Bool :=
  oge x left && ole x right && oge y top && ole y bottom

/-- `rangesIntersect(top,left,bottom,right, topR,leftR,bottomR,rightR)` from
qtree.js: `left <= rightRange && right >= leftRange && top <= bottomRange &&
bottom >= topRange` (the code after the first `return` is dead). -/
def rangesIntersect (top left bottom right topR leftR bottomR rightR : ℚ) : Bool :=
  decide (left ≤ rightR) && decide (leftR ≤ right) &&
    decide (top ≤ bottomR) && decide (topR ≤ bottom)

/-- A tree node.  `leafN` is a node whose `nodes` field is `undefined`;
`innerN` is a node whose `nodes` field holds the four quadrant children
`tl tr bl br`.  Both carry the `items` array and the stored `depth`. -/
inductive Node where
  | leafN (rect : Rect) (depth : ℕ) (items : List Item)
  | innerN (rect : Rect) (depth : ℕ) (items : List Item) (tl tr bl br : Node)
  deriving DecidableEq, Repr

/-- The rectangle of a node. -/
def Node.rect : Node → Rect
  | .leafN r _ _ => r
  | .innerN r _ _ _ _ _ _ => r

/-- The stored depth of a node. -/
def Node.depth : Node → ℕ
  | .leafN _ d _ => d
  | .innerN _ d _ _ _ _ _ => d

/-- The `items` array of a node. -/
def Node.items : Node → List Item
  | .leafN _ _ its => its
  | .innerN _ _ its _ _ _ _ => its

/-- Whether the node's `nodes` field is set (the node has been divided). -/
def Node.isInner : Node → Bool
  | .leafN _ _ _ => false
  | .innerN _ _ _ _ _ _ _ => true

/-- `containsPoint` of a node: `pointIsInBounds` against the node's rectangle. -/
def contP (r : Rect) (x y : Option ℚ) : Bool :=
  pointIsInBounds x y r.top r.left r.bottom r.right

/-- Top-left child rectangle created by `divide`:
`new Node(top, left, top + halfHeight, left + halfWidth)`. -/
def quadTL (r : Rect) : Rect :=
  ⟨r.top, r.left, r.top + (r.bottom - r.top) / 2, r.left + (r.right - r.left) / 2⟩

/-- Top-right child rectangle: `new Node(top, left + halfWidth, top + halfHeight, right)`. -/
def quadTR (r : Rect) : Rect :=
  ⟨r.top, r.left + (r.right - r.left) / 2, r.top + (r.bottom - r.top) / 2, r.right⟩

/-- Bottom-left child rectangle: `new Node(top + halfHeight, left, bottom, left + halfWidth)`. -/
def quadBL (r : Rect) : Rect :=
  ⟨r.top + (r.bottom - r.top) / 2, r.left, r.bottom, r.left + (r.right - r.left) / 2⟩

/-- Bottom-right child rectangle: `new Node(top + halfHeight, left + halfWidth, bottom, right)`. -/
def quadBR (r : Rect) : Rect :=
  ⟨r.top + (r.bottom - r.top) / 2, r.left + (r.right - r.left) / 2, r.bottom, r.right⟩

/-- The resolved configuration `opts`, after `init` applied the `||` defaults. -/
structure Opts where
  top : ℚ
  left : ℚ
  bottom : ℚ
  right : ℚ
  max_per_cell : ℕ
  max_depth : ℕ
  debug_mode : Bool
  deriving DecidableEq, Repr

/-- The four children of a divided node, in the fixed order tl, tr, bl, br. -/
abbrev Kids := Node × Node × Node × Node

mutual

/-- `Node.insert` from qtree.js, with explicit fuel (decremented on every
recursive call; `topFuel` below is always sufficient on well-formed trees).
Returns the updated node together with the JS boolean result; `Except` models
the debug-mode throws. -/
def insertF (o : Opts) : ℕ → Node → Item → Except String (Node × Bool)
  | 0, _, _ => .error "out of fuel"
  | fuel + 1, .leafN r d its, it =>
    if contP r it.x it.y then
      -- leaf node: accept if there is room or the depth cap is reached
      if its.length < o.max_per_cell ∨ o.max_depth ≤ d then
        .ok (.leafN r d (its ++ [it]), true)
      else do
        -- divide: create the four children, reinsert the current items,
        -- clear the item list, then insert the new item again (which now
        -- delegates to the children).
        let ks ← redistF o fuel r its
          (.leafN (quadTL r) (d + 1) [], .leafN (quadTR r) (d + 1) [],
           .leafN (quadBL r) (d + 1) [], .leafN (quadBR r) (d + 1) [])
        if contP r it.x it.y then do
          let (ks2, b) ← tryKidsF o fuel ks it
          if o.debug_mode ∧ b = false then
            .error "item was not inserted into any node"
          else
            .ok (.innerN r d [] ks2.1 ks2.2.1 ks2.2.2.1 ks2.2.2.2, b)
        else
          .ok (.innerN r d [] ks.1 ks.2.1 ks.2.2.1 ks.2.2.2, false)
    else
      .ok (.leafN r d its, false)
  | fuel + 1, .innerN r d its tl tr bl br, it =>
    if contP r it.x it.y then do
      let (ks2, b) ← tryKidsF o fuel (tl, tr, bl, br) it
      if o.debug_mode ∧ b = false then
        .error "item was not inserted into any node"
      else
        .ok (.innerN r d its ks2.1 ks2.2.1 ks2.2.2.1 ks2.2.2.2, b)
    else
      .ok (.innerN r d its tl tr bl br, false)
termination_by structural fuel _ _ => fuel

/-- Delegation to the four children in the fixed order tl, tr, bl, br,
accepting as soon as one child accepts (`if (nodes[..].insert(..)) return`).
A child that rejects may still have been mutated, so all four are threaded. -/
def tryKidsF (o : Opts) : ℕ → Kids → Item → Except String (Kids × Bool)
  | 0, _, _ => .error "out of fuel"
  | fuel + 1, (tl, tr, bl, br), it => do
    let (tl2, b1) ← insertF o fuel tl it
    if b1 then .ok ((tl2, tr, bl, br), true)
    else do
      let (tr2, b2) ← insertF o fuel tr it
      if b2 then .ok ((tl2, tr2, bl, br), true)
      else do
        let (bl2, b3) ← insertF o fuel bl it
        if b3 then .ok ((tl2, tr2, bl2, br), true)
        else do
          let (br2, b4) ← insertF o fuel br it
          .ok ((tl2, tr2, bl2, br2), b4)
termination_by structural fuel _ _ => fuel

/-- The reinsertion loop of `divide`: each old item goes through
`this.insert(items[i])` on the now-divided node (bounds check against the
parent rectangle, then delegation); in debug mode a failed reinsertion
throws, otherwise the item is silently dropped. -/
def redistF (o : Opts) : ℕ → Rect → List Item → Kids → Except String Kids
  | 0, _, _, _ => .error "out of fuel"
  | _ + 1, _, [], ks => .ok ks
  | fuel + 1, r, itm :: rest, ks =>
    if contP r itm.x itm.y then do
      let (ks2, b) ← tryKidsF o fuel ks itm
      if o.debug_mode ∧ b = false then
        .error "Item not inserted while dividing"
      else
        redistF o fuel r rest ks2
    else
      if o.debug_mode then
        .error "Item not inserted while dividing"
      else
        redistF o fuel r rest ks
termination_by structural fuel _ _ _ => fuel

end

/-- Fuel sufficient for `insertF` from the root of a well-formed tree. -/
def topFuel (o : Opts) : ℕ :=
  (o.max_depth + 1) * (o.max_per_cell + 4) + 1

/-- The set of keys of the JS object `storeValidIndices`, kept as a strictly
ascending list (JS iterates integer-like keys in ascending order);
`store[i] = true` adds `i` if absent and is a no-op otherwise. -/
def storeAdd (i : ℕ) : List ℕ → List ℕ
  | [] => [i]
  | j :: rest =>
    if i = j then j :: rest
    else if i < j then i :: j :: rest
    else j :: storeAdd i rest

/-- The item filter-and-collect loop of `Node.queryRange` over a node's own
`items` array: matching items' backing-store indices are recorded. -/
def collectItems (its : List Item) (top left bottom right : ℚ) (store : List ℕ) : List ℕ :=
  its.foldl
    (fun st itm =>
      if pointIsInBounds itm.x itm.y top left bottom right then storeAdd itm.i st else st)
    store

/-- `Node.queryRange` from qtree.js: prune if the query rectangle does not
intersect this node's rectangle; recurse into all four children if divided;
then test this node's own items (empty for reachable divided nodes). -/
def Node.queryRange : Node → ℚ → ℚ → ℚ → ℚ → List ℕ → List ℕ
  | .leafN r _ its, top, left, bottom, right, store =>
    if rangesIntersect top left bottom right r.top r.left r.bottom r.right then
      collectItems its top left bottom right store
    else
      store
  | .innerN r _ its tl tr bl br, top, left, bottom, right, store =>
    if rangesIntersect top left bottom right r.top r.left r.bottom r.right then
      let s1 := tl.queryRange top left bottom right store
      let s2 := tr.queryRange top left bottom right s1
      let s3 := bl.queryRange top left bottom right s2
      let s4 := br.queryRange top left bottom right s3
      collectItems its top left bottom right s4
    else
      store

/-- Constructor options as supplied by the caller; `none` models an absent
optional field.  The four bounds are required (the `'top' in options` check
of `init` is reflected by making them non-optional). -/
structure InitOptions where
  top : ℚ
  left : ℚ
  bottom : ℚ
  right : ℚ
  max_per_cell : Option ℕ
  max_depth : Option ℕ
  debug_mode : Option Bool
  deriving DecidableEq, Repr

/-- JS `options.field || default` for a numeric option: an absent field or a
falsy (zero) value falls back to the default. -/
def orDefault (v : Option ℕ) (dflt : ℕ) : ℕ :=
  match v with
  | some n => if n = 0 then dflt else n
  | none => dflt

/-- The `opts` record computed by `init` from the caller's options. -/
def initOpts (io : InitOptions) : Opts :=
  { top := io.top, left := io.left, bottom := io.bottom, right := io.right
    max_per_cell := orDefault io.max_per_cell 2
    max_depth := orDefault io.max_depth 4
    debug_mode := io.debug_mode.getD false }

/-- `new Node(opts.top, opts.left, opts.bottom, opts.right, 0)`: the fresh
root created by `init`. -/
def rootNode (o : Opts) : Node :=
  .leafN ⟨o.top, o.left, o.bottom, o.right⟩ 0 []

/-- The closure state of one `quadtree(options)` instance: the resolved
`opts`, the root `tree`, and the backing store `allItems`. -/
structure QTState where
  opts : Opts
  tree : Node
  allItems : List RawItem
  deriving DecidableEq, Repr

/-- The state right after `quadtree(options)` runs `init(options)`. -/
def initState (io : InitOptions) : QTState :=
  { opts := initOpts io, tree := rootNode (initOpts io), allItems := [] }

/-- `init(opts)` re-run on the already-resolved `opts` record, as `clear`
does: the `||` defaulting is applied again to the stored values. -/
def redefault (o : Opts) : Opts :=
  { top := o.top, left := o.left, bottom := o.bottom, right := o.right
    max_per_cell := if o.max_per_cell = 0 then 2 else o.max_per_cell
    max_depth := if o.max_depth = 0 then 4 else o.max_depth
    debug_mode := o.debug_mode || false }

/-- `clear()` from qtree.js: the transient `tree.items = []; tree.nodes =
undefined` assignments are immediately superseded by `init(opts)`, which
replaces `tree` with a fresh root and recomputes `opts` from itself.
`allItems` is not touched. -/
def qtClear (s : QTState) : QTState :=
  { opts := redefault s.opts, tree := rootNode (redefault s.opts), allItems := s.allItems }

/-- `checkIsValid(item)`: an item must have both `x` and `y`. -/
def checkIsValid (it : RawItem) : Bool :=
  it.x.isSome && it.y.isSome

/-- `itemToIndex(item, index)`: the wrapped representation stored in the tree. -/
def itemToIndex (it : RawItem) (index : ℕ) : Item :=
  { x := it.x, y := it.y, i := index }

/-- The argument of the public `insert`: a single item or an array of items. -/
inductive InsertArg where
  | one (it : RawItem)
  | many (l : List RawItem)
  deriving DecidableEq, Repr

/-- The array loop of `_insert`: each element is pushed onto the backing
store and wrapped with index `totalLengthBefore + i`; in debug mode a failed
root insertion throws.  Note: only the FIRST element was validated. -/
def insertLoop (o : Opts) (base : ℕ) :
    Node → List RawItem → ℕ → Except String Node
  | t, [], _ => .ok t
  | t, cur :: rest, j => do
    let (t2, res) ← insertF o (topFuel o) t (itemToIndex cur (base + j))
    if o.debug_mode ∧ res = false then
      .error "Item not inserted"
    else
      insertLoop o base t2 rest (j + 1)

/-- The public `insert` (`_insert` in qtree.js).  For an array argument only
`item[0]` is validated (`if (l > 0 && checkIsValid(item[0]))`); if it fails
the whole array is skipped (throwing in debug mode).  For a single item,
validation failure skips the push entirely. -/
def qtInsert (s : QTState) (arg : InsertArg) : Except String QTState :=
  match arg with
  | .many l =>
    match l with
    | [] => .ok s
    | it0 :: _ =>
      if checkIsValid it0 then do
        let t2 ← insertLoop s.opts s.allItems.length s.tree l 0
        .ok { s with tree := t2, allItems := s.allItems ++ l }
      else
        if s.opts.debug_mode then .error "invalid item" else .ok s
  | .one it =>
    if checkIsValid it then do
      let (t2, res) ← insertF s.opts (topFuel s.opts) s.tree
        (itemToIndex it s.allItems.length)
      if s.opts.debug_mode ∧ res = false then
        .error "Item not inserted"
      else
        .ok { s with tree := t2, allItems := s.allItems ++ [it] }
    else
      if s.opts.debug_mode then .error "invalid item" else .ok s

/-- `itemsByIndex(index)`: dereference the collected backing-store indices
(in ascending numeric key order, as JS iterates integer-like object keys)
against `allItems`.  An out-of-range index would yield JS `undefined`,
modelled as `none`. -/
def itemsByIndex (allItems : List RawItem) (index : List ℕ) : List (Option RawItem) :=
  index.map (fun i => allItems.get? i)

/-- `isNumber` of qtree.js; every `ℚ` models a JS number, so this is `true`
for every value the embedding can pass. -/
def isNumber (_q : ℚ) : Bool :=
  true

/-- The public `queryRange` (`_queryRange` in qtree.js). -/
def qtQueryRange (s : QTState) (top left bottom right : ℚ) :
    Except String (List (Option RawItem)) :=
  if isNumber top && isNumber left && isNumber bottom && isNumber right then
    .ok (itemsByIndex s.allItems (s.tree.queryRange top left bottom right []))
  else
    if s.opts.debug_mode then .error "Invalid arguments for queryRange" else .ok []

/-- The public `queryRangeByCenter`: converts center+extent to a rectangle
and queries it. -/
def qtQueryRangeByCenter (s : QTState) (x y w h : ℚ) :
    Except String (List (Option RawItem)) :=
  if isNumber x && isNumber y && isNumber w && isNumber h then
    .ok (itemsByIndex s.allItems
      (s.tree.queryRange (y - h / 2) (x - w / 2) (y + h / 2) (x + w / 2) []))
  else
    if s.opts.debug_mode then .error "Invalid arguments for queryRangeCenter" else .ok []

end QTree

namespace QTree

/-- The public `queryContainedBy`: reads `x, y, w, h` from an object and
queries the corresponding rectangle.  An object lacking one of the fields
fails the `isNumber` validation; `none` models such a missing field. -/
structure CenterQuery where
  x : Option ℚ
  y : Option ℚ
  w : Option ℚ
  h : Option ℚ
  deriving DecidableEq, Repr

/-- `isNumber` applied to a possibly-missing field. -/
def isNumberOpt (q : Option ℚ) : Bool :=
  q.isSome

/-- The public `queryContainedBy` (`_queryContainedBy` in qtree.js). -/
def qtQueryContainedBy (s : QTState) (obj : CenterQuery) :
    Except String (List (Option RawItem)) :=
  if isNumberOpt obj.x && isNumberOpt obj.y && isNumberOpt obj.w && isNumberOpt obj.h then
    .ok (itemsByIndex s.allItems
      (s.tree.queryRange (obj.y.getD 0 - obj.h.getD 0 / 2) (obj.x.getD 0 - obj.w.getD 0 / 2)
        (obj.y.getD 0 + obj.h.getD 0 / 2) (obj.x.getD 0 + obj.w.getD 0 / 2) []))
  else
    if s.opts.debug_mode then .error "Invalid arguments for queryContainedBy" else .ok []

/-- The root rectangle recorded in the resolved options. -/
def Opts.rect (o : Opts) : Rect :=
  ⟨o.top, o.left, o.bottom, o.right⟩

end QTree

deriving instance DecidableEq for Except

namespace QTree

/-! Concrete example states used by several concrete theorems below. -/

/-- Options of the boundary scenario: root `{top:0,left:0,bottom:100,right:100}`,
`max_per_cell: 1`, `max_depth: 4`, non-debug. -/
def exOptions : InitOptions :=
  ⟨0, 0, 100, 100, some 1, some 4, none⟩

/-- The boundary-scenario state after inserting `(0,0)`, `(100,100)`, `(50,50)`. -/
def exScenario : Except String QTState := do
  let s1 ← qtInsert (initState exOptions) (.one ⟨some 0, some 0⟩)
  let s2 ← qtInsert s1 (.one ⟨some 100, some 100⟩)
  qtInsert s2 (.one ⟨some 50, some 50⟩)

/-- An item lacking `x` (invalid for `checkIsValid`). -/
def badItem : RawItem :=
  ⟨none, some 5⟩

/-- A valid item at `(1, 1)`. -/
def goodItem : RawItem :=
  ⟨some 1, some 1⟩

/-- Insertion of an item lacking a coordinate never changes a node and is
rejected: a missing coordinate makes every bounds comparison false. -/
theorem insertF_none_coord (o : Opts) (fuel : ℕ) (n : Node) (it : Item)
    (h : it.x = none ∨ it.y = none) :
    insertF o (fuel + 1) n it = .ok (n, false) := by
  have hc : ∀ r, contP r it.x it.y = false := by
    intro r
    rcases h with h | h <;>
      simp [contP, pointIsInBounds, h, oge, ole]
  cases n <;> simp [insertF, hc]

/-- Pruning: if the query rectangle does not intersect a node's rectangle,
`Node.queryRange` leaves the store untouched. -/
theorem queryRange_no_intersect (n : Node) (t l b r : ℚ) (store : List ℕ)
    (h : rangesIntersect t l b r n.rect.top n.rect.left n.rect.bottom n.rect.right = false) :
    n.queryRange t l b r store = store := by
  cases n <;> simp_all [Node.queryRange, Node.rect]

unseal Rat.add Rat.sub Rat.mul Rat.inv in
/-- C8: with root `{top:0,left:0,bottom:100,right:100}`, `max_per_cell: 1` and
`max_depth: 4`, after inserting the points (0,0), (100,100), (50,50) in that
order, `queryRange(0,0,50,50)` returns exactly the items at (0,0) and (50,50)
(as the full result list, in backing-store order) and hence does not return
the item at (100,100). -/
theorem c8_boundary_scenario :
    (do
      let s3 ← exScenario
      qtQueryRange s3 0 0 50 50) =
      .ok [some ⟨some 0, some 0⟩, some ⟨some 50, some 50⟩] := by
  decide

/-- C10: a configuration supplying `max_per_cell` or `max_depth` as `0` (the
only falsy value of the `ℕ` model) is not honored: `options.max_per_cell || 2`
and `options.max_depth || 4` replace it by the default, so the constructed
index state is literally equal to the one constructed with the default value
(2 resp. 4) — and therefore behaves identically under every operation.  The
same holds for an absent option. -/
theorem c10_zero_options_fall_back_to_defaults :
    ∀ (t l b r : ℚ) (mpc mD : Option ℕ) (dbg : Option Bool),
      initState ⟨t, l, b, r, some 0, mD, dbg⟩ = initState ⟨t, l, b, r, some 2, mD, dbg⟩ ∧
      initState ⟨t, l, b, r, mpc, some 0, dbg⟩ = initState ⟨t, l, b, r, mpc, some 4, dbg⟩ ∧
      initState ⟨t, l, b, r, none, mD, dbg⟩ = initState ⟨t, l, b, r, some 2, mD, dbg⟩ ∧
      initState ⟨t, l, b, r, mpc, none, dbg⟩ = initState ⟨t, l, b, r, mpc, some 4, dbg⟩ := by
  intro t l b r mpc mD dbg
  refine ⟨?_, ?_, ?_, ?_⟩ <;> simp [initState, initOpts, orDefault]

/-- C9: for every index state whose root node spans the configured root
rectangle (true of every reachable state) and every query rectangle with
numeric bounds lying entirely outside the root rectangle, `queryRange`
returns the empty sequence and raises no error — in debug mode as well,
since the arguments are numbers and validation passes. -/
theorem c9_query_outside_root_returns_empty (s : QTState) (t l b r : ℚ)
    (hrect : s.tree.rect = s.opts.rect)
    (hout : r < s.opts.left ∨ s.opts.right < l ∨ b < s.opts.top ∨ s.opts.bottom < t) :
    qtQueryRange s t l b r = .ok [] := by
  have hfalse : rangesIntersect t l b r s.tree.rect.top s.tree.rect.left
      s.tree.rect.bottom s.tree.rect.right = false := by
    rw [hrect]
    rcases hout with h | h | h | h <;>
      simp only [rangesIntersect, Opts.rect, Bool.and_eq_false_iff, decide_eq_false_iff_not,
        not_le] <;>
      tauto
  rw [qtQueryRange]
  simp [isNumber, queryRange_no_intersect s.tree t l b r [] hfalse, itemsByIndex]

/-- Witness for C9 at a concrete input: the fresh boundary-scenario index and
the query rectangle (200,200)-(300,300), which lies strictly to the right of
and below the root rectangle. -/
theorem c9_witness :
    ((initState exOptions).tree.rect = (initState exOptions).opts.rect) ∧
    ((300 : ℚ) < (initState exOptions).opts.left ∨ (initState exOptions).opts.right < (200 : ℚ) ∨
      (300 : ℚ) < (initState exOptions).opts.top ∨ (initState exOptions).opts.bottom < (200 : ℚ)) ∧
    qtQueryRange (initState exOptions) 200 200 300 300 = .ok [] :=
  ⟨by decide, Or.inr (Or.inl (by decide)),
    c9_query_outside_root_returns_empty (initState exOptions) 200 200 300 300 (by decide)
      (Or.inr (Or.inl (by decide)))⟩

/-- C1 counterexample: insert one item into a fresh index, call `clear`, and
the backing store still holds the item — `clear` does not discard `allItems`
(it only replaces the root node and recomputes `opts`), whereas the claim
asserts the backing store is reinitialized (as in a fresh index, whose
backing store is empty). -/
theorem c1_clear_keeps_backing_store_counterexample :
    (qtInsert (initState exOptions) (.one goodItem)).map
        (fun s => (qtClear s).allItems) = .ok [goodItem] ∧
      (initState exOptions).allItems = [] := by
  constructor
  · decide
  · decide

/-- C2 counterexample: for the array `[badItem, goodItem]` in non-debug mode,
the code validates only the first element; since it is invalid the entire
array is skipped, so the valid `goodItem` is NOT appended to the backing
store (the claim asserts every valid item of the sequence is appended). -/
theorem c2_only_first_validated_counterexample :
    qtInsert (initState exOptions) (.many [badItem, goodItem]) = .ok (initState exOptions) ∧
      (initState exOptions).allItems = [] ∧
      checkIsValid goodItem = true := by
  refine ⟨by decide, by decide, by decide⟩

/-- C5 counterexample: a single item lacking `x`, inserted in non-debug mode,
is NOT appended to the backing store (the push is inside the validation
branch), so the backing store does not grow by one as the claim asserts —
the whole state is unchanged. -/
theorem c5_invalid_single_not_appended_counterexample :
    qtInsert (initState exOptions) (.one badItem) = .ok (initState exOptions) ∧
      (initState exOptions).allItems.length = 0 := by
  refine ⟨by decide, by decide⟩

/-- C3 counterexample: the point (200,200) lies outside the root rectangle
(0,0)-(100,100), so its item is never indexed; querying (0,0)-(300,300)
returns the empty sequence even though (200,200) satisfies the inclusive
bounds test against that query rectangle. -/
theorem c3_out_of_root_item_counterexample :
    (do
      let s ← qtInsert (initState exOptions) (.one ⟨some 200, some 200⟩)
      qtQueryRange s 0 0 300 300) = .ok [] ∧
      pointIsInBounds (some 200) (some 200) 0 0 300 300 = true := by
  refine ⟨by decide, by decide⟩

/-- C5 (amended): in non-debug mode, a single item lacking `x` or `y` passed
to the public insert is dropped entirely: it is neither appended to the
backing store nor inserted into the tree — the state is unchanged (rather
than the backing store growing by one). -/
theorem c5_invalid_single_item_state_unchanged (s : QTState) (it : RawItem)
    (hdbg : s.opts.debug_mode = false) (hbad : checkIsValid it = false) :
    qtInsert s (.one it) = .ok s := by
  simp [qtInsert, hbad, hdbg]

/-- Witness for the amended C5 at a concrete input. -/
theorem c5_amended_witness :
    (initState exOptions).opts.debug_mode = false ∧
      checkIsValid badItem = false ∧
      qtInsert (initState exOptions) (.one badItem) = .ok (initState exOptions) :=
  ⟨by decide, by decide,
    c5_invalid_single_item_state_unchanged (initState exOptions) badItem (by decide) (by decide)⟩

/-- C2 (amended): only the first element of an array argument is validated.
If the first element is invalid, the entire array is skipped in non-debug
mode (no element, valid or not, is appended) and raises in debug mode; if
the first element is valid, every element of the array is appended to the
backing store, and an element lacking `x` or `y` never enters the tree (its
root insertion leaves the tree unchanged and returns false).  A single
(non-array) item is validated individually. -/
theorem c2_first_item_only_validation (s : QTState) (bad good : RawItem)
    (l : List RawItem) (hbad : checkIsValid bad = false)
    (hgood : checkIsValid good = true) :
    (s.opts.debug_mode = false → qtInsert s (.many (bad :: l)) = .ok s) ∧
    (s.opts.debug_mode = true → qtInsert s (.many (bad :: l)) = .error "invalid item") ∧
    (∀ s', qtInsert s (.many (good :: l)) = .ok s' →
      s'.allItems = s.allItems ++ (good :: l)) ∧
    (∀ fuel n idx, insertF s.opts (fuel + 1) n (itemToIndex bad idx) = .ok (n, false)) := by
  refine ⟨?_, ?_, ?_, ?_⟩
  · intro hdbg
    simp [qtInsert, hbad, hdbg]
  · intro hdbg
    simp [qtInsert, hbad, hdbg]
  · intro s' h
    simp only [qtInsert, hgood, if_true] at h
    cases hl : insertLoop s.opts s.allItems.length s.tree (good :: l) 0 with
    | error e =>
      rw [hl] at h
      simp [Bind.bind, Except.bind] at h
    | ok t2 =>
      rw [hl] at h
      simp only [Bind.bind, Except.bind, Except.ok.injEq] at h
      rw [← h]
  · intro fuel n idx
    apply insertF_none_coord
    rw [checkIsValid] at hbad
    rcases Bool.and_eq_false_iff.mp hbad with h | h
    · left
      show bad.x = none
      cases hx : bad.x with
      | none => rfl
      | some v => rw [hx] at h; simp at h
    · right
      show bad.y = none
      cases hy : bad.y with
      | none => rfl
      | some v => rw [hy] at h; simp at h

/-- Witness for the amended C2 at concrete inputs. -/
theorem c2_amended_witness :
    checkIsValid badItem = false ∧ checkIsValid goodItem = true ∧
      (initState exOptions).opts.debug_mode = false ∧
      qtInsert (initState exOptions) (.many [badItem, goodItem]) = .ok (initState exOptions) :=
  ⟨by decide, by decide, by decide,
    (c2_first_item_only_validation (initState exOptions) badItem goodItem [goodItem]
      (by decide) (by decide)).1 (by decide)⟩

/-! Well-formedness invariant and basic geometry of quadrant rectangles. -/

/-- All wrapped items stored anywhere in a node's subtree, in tree order. -/
def Node.elems : Node → List Item
  | .leafN _ _ its => its
  | .innerN _ _ its tl tr bl br =>
    its ++ tl.elems ++ tr.elems ++ bl.elems ++ br.elems

/-- All wrapped items stored in a quadruple of children. -/
def Kids.elems (ks : Kids) : List Item :=
  ks.1.elems ++ ks.2.1.elems ++ ks.2.2.1.elems ++ ks.2.2.2.elems

/-- A geometrically meaningful rectangle: top-left corner above and to the
left of the bottom-right corner. -/
def rectWF (r : Rect) : Prop :=
  r.top ≤ r.bottom ∧ r.left ≤ r.right

/-- A point is contained in some quadrant of `r`. -/
def kidContains (r : Rect) (x y : Option ℚ) : Bool :=
  contP (quadTL r) x y || contP (quadTR r) x y || contP (quadBL r) x y ||
    contP (quadBR r) x y

/-- `contP` on explicit coordinates. -/
theorem contP_some_iff (r : Rect) (qx qy : ℚ) :
    contP r (some qx) (some qy) = true ↔
      r.left ≤ qx ∧ qx ≤ r.right ∧ r.top ≤ qy ∧ qy ≤ r.bottom := by
  simp [contP, pointIsInBounds, oge, ole, and_assoc]

/-- A missing coordinate fails every containment test. -/
theorem contP_none (r : Rect) (x y : Option ℚ) (h : x = none ∨ y = none) :
    contP r x y = false := by
  rcases h with h | h <;> simp [contP, pointIsInBounds, h, oge, ole]

/-- A contained point forces the coordinates to be present. -/
theorem contP_exists_coords {r : Rect} {x y : Option ℚ} (h : contP r x y = true) :
    ∃ qx qy, x = some qx ∧ y = some qy := by
  cases hx : x with
  | none => rw [contP_none r x y (Or.inl hx)] at h; cases h
  | some qx =>
    cases hy : y with
    | none => rw [contP_none r x y (Or.inr hy)] at h; cases h
    | some qy => exact ⟨qx, qy, rfl, rfl⟩

/-- A nonempty rectangle (one that contains a point) is well-formed. -/
theorem rectWF_of_contP {r : Rect} {x y : Option ℚ} (h : contP r x y = true) :
    rectWF r := by
  obtain ⟨qx, qy, hx, hy⟩ := contP_exists_coords h
  subst hx; subst hy
  rw [contP_some_iff] at h
  exact ⟨le_trans h.2.2.1 h.2.2.2, le_trans h.1 h.2.1⟩

/-- Each quadrant of a well-formed rectangle is well-formed. -/
theorem rectWF_quad {r : Rect} (h : rectWF r) :
    rectWF (quadTL r) ∧ rectWF (quadTR r) ∧ rectWF (quadBL r) ∧ rectWF (quadBR r) := by
  obtain ⟨hv, hh⟩ := h
  refine ⟨⟨?_, ?_⟩, ⟨?_, ?_⟩, ⟨?_, ?_⟩, ⟨?_, ?_⟩⟩ <;>
    simp [quadTL, quadTR, quadBL, quadBR] <;> linarith

/-- A point of a quadrant lies in the parent rectangle. -/
theorem contP_of_quad {r : Rect} {x y : Option ℚ} (hr : rectWF r)
    (h : kidContains r x y = true) : contP r x y = true := by
  obtain ⟨hv, hh⟩ := hr
  rcases Bool.or_eq_true_iff.mp h with h' | h4
  rcases Bool.or_eq_true_iff.mp h' with h'' | h3
  rcases Bool.or_eq_true_iff.mp h'' with h1 | h2
  all_goals
    first
      | (obtain ⟨qx, qy, hx, hy⟩ := contP_exists_coords (by assumption)
         subst hx; subst hy
         rw [contP_some_iff] at *
         simp only [quadTL, quadTR, quadBL, quadBR] at *
         refine ⟨?_, ?_, ?_, ?_⟩ <;> linarith [(by assumption : _ ∧ _ ∧ _ ∧ _).1])

/-- A point of a well-formed rectangle lies in one of its quadrants. -/
theorem quad_cover {r : Rect} {x y : Option ℚ} (hr : rectWF r)
    (h : contP r x y = true) : kidContains r x y = true := by
  obtain ⟨qx, qy, hx, hy⟩ := contP_exists_coords h
  subst hx; subst hy
  rw [contP_some_iff] at h
  obtain ⟨h1, h2, h3, h4⟩ := h
  rw [kidContains]
  by_cases hxm : qx ≤ r.left + (r.right - r.left) / 2 <;>
    by_cases hym : qy ≤ r.top + (r.bottom - r.top) / 2
  · have : contP (quadTL r) (some qx) (some qy) = true := by
      rw [contP_some_iff]; simp only [quadTL]; refine ⟨h1, hxm, h3, hym⟩
    simp [this]
  · have : contP (quadBL r) (some qx) (some qy) = true := by
      rw [contP_some_iff]; simp only [quadBL]
      refine ⟨h1, hxm, by linarith, h4⟩
    simp [this]
  · have : contP (quadTR r) (some qx) (some qy) = true := by
      rw [contP_some_iff]; simp only [quadTR]
      refine ⟨by linarith, h2, h3, hym⟩
    simp [this]
  · have : contP (quadBR r) (some qx) (some qy) = true := by
      rw [contP_some_iff]; simp only [quadBR]
      refine ⟨by linarith, h2, by linarith, h4⟩
    simp [this]

/-- On a well-formed rectangle, quadrant containment and rectangle
containment agree. -/
theorem kidContains_eq_contP {r : Rect} (hr : rectWF r) (x y : Option ℚ) :
    kidContains r x y = contP r x y := by
  cases hk : kidContains r x y with
  | true => exact (contP_of_quad hr hk).symm
  | false =>
    cases hc : contP r x y with
    | true => rw [quad_cover hr hc] at hk; cases hk
    | false => rfl

/-- The invariant satisfied by every reachable node at depth `d`:
* the stored depth equals the actual depth `d`;
* a leaf's items are all within its rectangle, and its item list respects
  `max_per_cell` unless the depth cap has been reached;
* a divided node has an empty item list, was divided below the depth cap,
  has a well-formed rectangle, and its four children are the exact midpoint
  quadrants, recursively well-formed at depth `d + 1`. -/
def WFN (o : Opts) : ℕ → Node → Prop
  | d, .leafN r dd its =>
    dd = d ∧ (∀ it ∈ its, contP r it.x it.y = true) ∧
      (its.length ≤ o.max_per_cell ∨ o.max_depth ≤ d)
  | d, .innerN r dd its tl tr bl br =>
    dd = d ∧ its = [] ∧ d < o.max_depth ∧ rectWF r ∧
      (tl.rect = quadTL r ∧ tr.rect = quadTR r ∧
        bl.rect = quadBL r ∧ br.rect = quadBR r ∧
        WFN o (d + 1) tl ∧ WFN o (d + 1) tr ∧
        WFN o (d + 1) bl ∧ WFN o (d + 1) br)

/-- Well-formedness of a quadruple of children of a node with rectangle `r`
at depth `d`: the four rectangles are exactly the four midpoint quadrants,
and each child is recursively well-formed at depth `d + 1`. -/
def KidsWF (o : Opts) (d : ℕ) (r : Rect) (ks : Kids) : Prop :=
  ks.1.rect = quadTL r ∧ ks.2.1.rect = quadTR r ∧
    ks.2.2.1.rect = quadBL r ∧ ks.2.2.2.rect = quadBR r ∧
    WFN o (d + 1) ks.1 ∧ WFN o (d + 1) ks.2.1 ∧
    WFN o (d + 1) ks.2.2.1 ∧ WFN o (d + 1) ks.2.2.2

/-- The divided-node case of the invariant, phrased with `KidsWF`. -/
theorem WFN_innerN (o : Opts) (d : ℕ) (r : Rect) (dd : ℕ) (its : List Item)
    (tl tr bl br : Node) :
    WFN o d (.innerN r dd its tl tr bl br) ↔
      dd = d ∧ its = [] ∧ d < o.max_depth ∧ rectWF r ∧
        KidsWF o d r (tl, tr, bl, br) :=
  Iff.rfl

/-- Fuel threshold sufficient for `insertF` at depth `d`. -/
def thr (o : Opts) (d : ℕ) : ℕ :=
  (o.max_depth + 1 - d) * (o.max_per_cell + 4) + 1

/-- Every item stored in a well-formed subtree lies within the subtree root's
rectangle. -/
theorem elems_contP (o : Opts) :
    ∀ (n : Node) (d : ℕ), WFN o d n → ∀ it ∈ n.elems, contP n.rect it.x it.y = true := by
  intro n
  induction n with
  | leafN r dd its =>
    intro d hwf it hit
    exact hwf.2.1 it hit
  | innerN r dd its tl tr bl br ihtl ihtr ihbl ihbr =>
    intro d hwf it hit
    obtain ⟨-, hits, -, hr, h1, h2, h3, h4, w1, w2, w3, w4⟩ := hwf
    simp only [Node.elems, hits, List.nil_append, List.mem_append, List.mem_append,
      List.mem_append] at hit
    have : kidContains r it.x it.y = true := by
      rw [kidContains]
      rcases hit with ((hh | hh) | hh) | hh
      · have := ihtl (d + 1) w1 it hh; rw [h1] at this; simp [this]
      · have := ihtr (d + 1) w2 it hh; rw [h2] at this; simp [this]
      · have := ihbl (d + 1) w3 it hh; rw [h3] at this; simp [this]
      · have := ihbr (d + 1) w4 it hh; rw [h4] at this; simp [this]
    exact contP_of_quad hr this

/-! Specification of `insertF` / `tryKidsF` / `redistF` on well-formed
trees, proved by a combined induction on fuel. -/

/-- Specification of `insertF` at a given fuel: on a well-formed node with
sufficient fuel it never throws, returns the containment test as its boolean,
preserves the invariant, rectangle and stored depth, appends the item to the
subtree's contents exactly when accepted, and leaves the node untouched when
the point is out of bounds.  A divided node never reverts to a leaf. -/
def InsertSpec (o : Opts) (fuel : ℕ) : Prop :=
  ∀ d n it, WFN o d n → thr o d ≤ fuel →
    ∃ n', insertF o fuel n it = .ok (n', contP n.rect it.x it.y) ∧
      WFN o d n' ∧ n'.rect = n.rect ∧ n'.depth = n.depth ∧
      (n.isInner = true → n'.isInner = true) ∧
      (contP n.rect it.x it.y = true → n'.elems.Perm (n.elems ++ [it])) ∧
      (contP n.rect it.x it.y = false → n' = n)

/-- Specification of `tryKidsF` on four well-formed quadrant children. -/
def TryKidsSpec (o : Opts) (fuel : ℕ) : Prop :=
  ∀ d r ks it, KidsWF o d r ks → thr o (d + 1) + 1 ≤ fuel →
    ∃ ks', tryKidsF o fuel ks it = .ok (ks', kidContains r it.x it.y) ∧
      KidsWF o d r ks' ∧
      (kidContains r it.x it.y = true → (Kids.elems ks').Perm (Kids.elems ks ++ [it])) ∧
      (kidContains r it.x it.y = false → ks' = ks)

/-- Specification of `redistF` for items all contained in the parent
rectangle (as the items of a well-formed leaf are). -/
def RedistSpec (o : Opts) (fuel : ℕ) : Prop :=
  ∀ d r ks its, rectWF r → KidsWF o d r ks →
    (∀ itm ∈ its, contP r itm.x itm.y = true) →
    its.length + (thr o (d + 1) + 1) ≤ fuel →
    ∃ ks', redistF o fuel r its ks = .ok ks' ∧ KidsWF o d r ks' ∧
      (Kids.elems ks').Perm (Kids.elems ks ++ its)

/-- Appending an item inside the left component of a concatenation. -/
theorem perm_push_left {A A' B : List Item} {it : Item}
    (h : A'.Perm (A ++ [it])) : (A' ++ B).Perm ((A ++ B) ++ [it]) := by
  rw [List.append_assoc]
  refine (h.append_right B).trans ?_
  rw [List.append_assoc]
  exact List.Perm.append_left A List.perm_append_comm

/-- Appending an item inside the right component of a concatenation. -/
theorem perm_push_right {A B B' : List Item} {it : Item}
    (h : B'.Perm (B ++ [it])) : (A ++ B').Perm ((A ++ B) ++ [it]) := by
  rw [List.append_assoc]
  exact List.Perm.append_left A h

/-- Step lemma: the `tryKidsF` specification follows from the `insertF`
specification at one unit less fuel. -/
theorem tryKids_step (o : Opts) (fuel : ℕ) (ih : InsertSpec o fuel) :
    TryKidsSpec o (fuel + 1) := by
  intro d r ks it hkw hfuel
  rcases ks with ⟨tl, tr, bl, br⟩
  obtain ⟨e1, e2, e3, e4, w1, w2, w3, w4⟩ := hkw
  have hf : thr o (d + 1) ≤ fuel := by omega
  obtain ⟨tl', htl, wtl, rtl, dtl, itl, ptl, utl⟩ := ih (d + 1) tl it w1 hf
  obtain ⟨tr', htr, wtr, rtr, dtr, itr, ptr, utr⟩ := ih (d + 1) tr it w2 hf
  obtain ⟨bl', hbl, wbl, rbl, dbl, ibl, pbl, ubl⟩ := ih (d + 1) bl it w3 hf
  obtain ⟨br', hbr, wbr, rbr, dbr, ibr, pbr, ubr⟩ := ih (d + 1) br it w4 hf
  rw [e1] at htl ptl utl
  rw [e2] at htr ptr utr
  rw [e3] at hbl pbl ubl
  rw [e4] at hbr pbr ubr
  simp only [tryKidsF, htl, Bind.bind, Except.bind]
  cases h1 : contP (quadTL r) it.x it.y with
  | true =>
    refine ⟨(tl', tr, bl, br), ?_, ?_, ?_, ?_⟩
    · simp [h1, kidContains]
    · exact ⟨by rw [rtl, e1], e2, e3, e4, wtl, w2, w3, w4⟩
    · intro
      simp only [Kids.elems]
      exact perm_push_left (perm_push_left (perm_push_left (ptl h1)))
    · intro hk
      rw [kidContains, h1] at hk
      simp at hk
  | false =>
    rw [utl h1]
    simp only [Bool.false_eq_true, if_false, htr]
    cases h2 : contP (quadTR r) it.x it.y with
    | true =>
      refine ⟨(tl, tr', bl, br), ?_, ?_, ?_, ?_⟩
      · simp [h1, h2, kidContains]
      · exact ⟨e1, by rw [rtr, e2], e3, e4, w1, wtr, w3, w4⟩
      · intro
        simp only [Kids.elems]
        exact perm_push_left (perm_push_left (perm_push_right (ptr h2)))
      · intro hk
        rw [kidContains, h1, h2] at hk
        simp at hk
    | false =>
      rw [utr h2]
      simp only [Bool.false_eq_true, if_false, hbl]
      cases h3 : contP (quadBL r) it.x it.y with
      | true =>
        refine ⟨(tl, tr, bl', br), ?_, ?_, ?_, ?_⟩
        · simp [h1, h2, h3, kidContains]
        · exact ⟨e1, e2, by rw [rbl, e3], e4, w1, w2, wbl, w4⟩
        · intro
          simp only [Kids.elems]
          exact perm_push_left (perm_push_right (pbl h3))
        · intro hk
          rw [kidContains, h1, h2, h3] at hk
          simp at hk
      | false =>
        rw [ubl h3]
        simp only [Bool.false_eq_true, if_false, hbr]
        cases h4 : contP (quadBR r) it.x it.y with
        | true =>
          refine ⟨(tl, tr, bl, br'), ?_, ?_, ?_, ?_⟩
          · simp [h1, h2, h3, h4, kidContains]
          · exact ⟨e1, e2, e3, by rw [rbr, e4], w1, w2, w3, wbr⟩
          · intro
            simp only [Kids.elems]
            exact perm_push_right (pbr h4)
          · intro hk
            rw [kidContains, h1, h2, h3, h4] at hk
            simp at hk
        | false =>
          rw [ubr h4]
          refine ⟨(tl, tr, bl, br), ?_, ⟨e1, e2, e3, e4, w1, w2, w3, w4⟩, ?_, fun _ => rfl⟩
          · simp [h1, h2, h3, h4, kidContains]
          · intro hk
            rw [kidContains, h1, h2, h3, h4] at hk
            simp at hk

/-- Step lemma: the `redistF` specification follows from the `tryKidsF` and
`redistF` specifications at one unit less fuel. -/
theorem redist_step (o : Opts) (fuel : ℕ) (ihK : TryKidsSpec o fuel)
    (ihR : RedistSpec o fuel) : RedistSpec o (fuel + 1) := by
  intro d r ks its hr hkw hcont hfuel
  cases its with
  | nil =>
    refine ⟨ks, ?_, hkw, ?_⟩
    · rw [redistF]
    · rw [List.append_nil]
  | cons itm rest =>
    have hc : contP r itm.x itm.y = true := hcont itm (List.mem_cons_self _ _)
    have hkc : kidContains r itm.x itm.y = true := by
      rw [kidContains_eq_contP hr, hc]
    obtain ⟨ks1, htks, hkw1, hperm1, -⟩ :=
      ihK d r ks itm hkw (by simp only [List.length_cons] at hfuel; omega)
    obtain ⟨ks2, hred, hkw2, hperm2⟩ :=
      ihR d r ks1 rest hr hkw1 (fun x hx => hcont x (List.mem_cons_of_mem _ hx))
        (by simp only [List.length_cons] at hfuel; omega)
    refine ⟨ks2, ?_, hkw2, ?_⟩
    · rw [redistF, if_pos hc]
      simp only [htks, Bind.bind, Except.bind, hkc]
      simp [hred]
    · refine hperm2.trans ?_
      refine ((hperm1 hkc).append_right rest).trans ?_
      rw [List.append_assoc]
      rfl

/-- Unfolding of the fuel threshold one level below the depth cap. -/
theorem thr_succ (o : Opts) (d : ℕ) (h : d < o.max_depth) :
    thr o d = thr o (d + 1) + (o.max_per_cell + 4) := by
  rw [thr, thr]
  have h1 : o.max_depth + 1 - d = (o.max_depth + 1 - (d + 1)) + 1 := by omega
  rw [h1, Nat.succ_mul]
  omega

/-- The `Kids.elems` of four fresh empty leaves is empty. -/
theorem kids_elems_fresh (r : Rect) (d : ℕ) :
    Kids.elems (Node.leafN (quadTL r) d [], Node.leafN (quadTR r) d [],
      Node.leafN (quadBL r) d [], Node.leafN (quadBR r) d []) = [] := by
  simp [Kids.elems, Node.elems]

/-- Step lemma: the `insertF` specification follows from the `tryKidsF` and
`redistF` specifications at one unit less fuel. -/
theorem insert_step (o : Opts) (fuel : ℕ) (ihK : TryKidsSpec o fuel)
    (ihR : RedistSpec o fuel) : InsertSpec o (fuel + 1) := by
  intro d n it hwf hfuel
  cases n with
  | leafN r dd its =>
    obtain ⟨hdd, hin, hlen⟩ := hwf
    subst hdd
    simp only [Node.rect, Node.depth, Node.isInner, Node.elems]
    cases hc : contP r it.x it.y with
    | false =>
      refine ⟨.leafN r dd its, ?_, ⟨rfl, hin, hlen⟩, rfl, rfl, ?_, ?_, fun _ => rfl⟩
      · simp only [insertF, hc, Bool.false_eq_true, if_false]
      · intro h; cases h
      · intro h; cases h
    | true =>
      by_cases hroom : its.length < o.max_per_cell ∨ o.max_depth ≤ dd
      · refine ⟨.leafN r dd (its ++ [it]), ?_, ?_, rfl, rfl, ?_, ?_, ?_⟩
        · simp only [insertF, hc, if_true, if_pos hroom]
        · refine ⟨rfl, ?_, ?_⟩
          · intro x hx
            rcases List.mem_append.mp hx with hx | hx
            · exact hin x hx
            · rw [List.mem_singleton.mp hx]; exact hc
          · rcases hroom with hroom | hroom
            · left; rw [List.length_append, List.length_singleton]; omega
            · right; exact hroom
        · intro h; cases h
        · intro
          simp only [Node.elems]
          exact List.Perm.refl _
        · intro h; cases h
      · push_neg at hroom
        obtain ⟨hfull, hcap⟩ := hroom
        have hdm : dd < o.max_depth := hcap
        have hrw : rectWF r := rectWF_of_contP hc
        have hthr : thr o dd = thr o (dd + 1) + (o.max_per_cell + 4) := thr_succ o dd hdm
        have hlen2 : its.length ≤ o.max_per_cell := by
          rcases hlen with h | h
          · exact h
          · omega
        have hkwf : KidsWF o dd r
            (Node.leafN (quadTL r) (dd + 1) [], Node.leafN (quadTR r) (dd + 1) [],
             Node.leafN (quadBL r) (dd + 1) [], Node.leafN (quadBR r) (dd + 1) []) := by
          refine ⟨rfl, rfl, rfl, rfl, ?_, ?_, ?_, ?_⟩ <;>
            exact ⟨rfl, (fun x hx => absurd hx (List.not_mem_nil x)), Or.inl (by simp)⟩
        obtain ⟨ks1, hred, hkw1, hperm1⟩ :=
          ihR dd r _ its hrw hkwf hin (by omega)
        obtain ⟨ks2, htk, hkw2, hperm2, -⟩ :=
          ihK dd r ks1 it hkw1 (by omega)
        have hkc : kidContains r it.x it.y = true := by
          rw [kidContains_eq_contP hrw, hc]
        rw [hkc] at htk
        refine ⟨.innerN r dd [] ks2.1 ks2.2.1 ks2.2.2.1 ks2.2.2.2, ?_, ?_, rfl, rfl, ?_, ?_, ?_⟩
        · simp only [insertF, hc, if_true, if_neg (by omega : ¬(its.length < o.max_per_cell ∨ o.max_depth ≤ dd)), hred, Bind.bind, Except.bind, htk]
          simp
        · exact ⟨rfl, rfl, hdm, hrw, hkw2⟩
        · intro h; cases h
        · intro
          simp only [Node.elems, List.nil_append]
          have he : ks2.1.elems ++ ks2.2.1.elems ++ ks2.2.2.1.elems ++ ks2.2.2.2.elems =
              Kids.elems ks2 := rfl
          rw [he]
          refine (hperm2 hkc).trans ?_
          refine (hperm1.append_right [it]).trans ?_
          rw [kids_elems_fresh, List.nil_append]
        · intro h; cases h
  | innerN r dd its tl tr bl br =>
    obtain ⟨hdd, hits, hdm, hrw, hkw⟩ := hwf
    subst hdd
    subst hits
    simp only [Node.rect, Node.depth, Node.isInner, Node.elems]
    cases hc : contP r it.x it.y with
    | false =>
      refine ⟨.innerN r dd [] tl tr bl br, ?_, ⟨rfl, rfl, hdm, hrw, hkw⟩, rfl, rfl,
        fun _ => rfl, ?_, fun _ => rfl⟩
      · simp only [insertF, hc, Bool.false_eq_true, if_false]
      · intro h; cases h
    | true =>
      have hthr : thr o dd = thr o (dd + 1) + (o.max_per_cell + 4) := thr_succ o dd hdm
      obtain ⟨ks2, htk, hkw2, hperm2, -⟩ :=
        ihK dd r (tl, tr, bl, br) it hkw (by omega)
      have hkc : kidContains r it.x it.y = true := by
        rw [kidContains_eq_contP hrw, hc]
      rw [hkc] at htk
      refine ⟨.innerN r dd [] ks2.1 ks2.2.1 ks2.2.2.1 ks2.2.2.2, ?_, ?_, rfl, rfl,
        fun _ => rfl, ?_, ?_⟩
      · simp only [insertF, hc, if_true, htk, Bind.bind, Except.bind]
        simp
      · exact ⟨rfl, rfl, hdm, hrw, hkw2⟩
      · intro
        simp only [Node.elems, List.nil_append]
        have he : ks2.1.elems ++ ks2.2.1.elems ++ ks2.2.2.1.elems ++ ks2.2.2.2.elems =
            Kids.elems ks2 := rfl
        rw [he]
        exact hperm2 hkc
      · intro h; cases h

/-- The threshold is positive. -/
theorem thr_pos (o : Opts) (d : ℕ) : 1 ≤ thr o d := by
  rw [thr]; omega

/-- The three specifications hold at every fuel. -/
theorem spec_all (o : Opts) :
    ∀ fuel, InsertSpec o fuel ∧ TryKidsSpec o fuel ∧ RedistSpec o fuel := by
  intro fuel
  induction fuel with
  | zero =>
    refine ⟨?_, ?_, ?_⟩
    · intro d n it _ hf
      have := thr_pos o d; omega
    · intro d r ks it _ hf
      have := thr_pos o (d + 1); omega
    · intro d r ks its _ _ _ hf
      have := thr_pos o (d + 1); omega
  | succ fuel ih =>
    exact ⟨insert_step o fuel ih.2.1 ih.2.2, tryKids_step o fuel ih.1,
      redist_step o fuel ih.2.1 ih.2.2⟩

/-- The fuel supplied by the public entry point meets the root threshold. -/
theorem thr_zero_le_topFuel (o : Opts) : thr o 0 ≤ topFuel o := by
  simp [thr, topFuel]

/-- The `insertF` specification, packaged for direct use. -/
theorem insertF_spec (o : Opts) (fuel d : ℕ) (n : Node) (it : Item)
    (hwf : WFN o d n) (hf : thr o d ≤ fuel) :
    ∃ n', insertF o fuel n it = .ok (n', contP n.rect it.x it.y) ∧
      WFN o d n' ∧ n'.rect = n.rect ∧ n'.depth = n.depth ∧
      (n.isInner = true → n'.isInner = true) ∧
      (contP n.rect it.x it.y = true → n'.elems.Perm (n.elems ++ [it])) ∧
      (contP n.rect it.x it.y = false → n' = n) :=
  (spec_all o fuel).1 d n it hwf hf

/-! The query side: the store is a strictly ascending list of indices. -/

/-- Membership in `storeAdd`. -/
theorem mem_storeAdd (k i : ℕ) :
    ∀ l : List ℕ, k ∈ storeAdd i l ↔ k = i ∨ k ∈ l := by
  intro l
  induction l with
  | nil => simp [storeAdd]
  | cons j rest ihl =>
    rw [storeAdd]
    split
    · next h =>
      subst h
      simp only [List.mem_cons]
      tauto
    · split
      · simp [List.mem_cons]
      · simp only [List.mem_cons, ihl]
        tauto

/-- `storeAdd` preserves strict sortedness. -/
theorem sorted_storeAdd (i : ℕ) :
    ∀ l : List ℕ, l.Sorted (· < ·) → (storeAdd i l).Sorted (· < ·) := by
  intro l
  induction l with
  | nil =>
    intro
    simp [storeAdd]
  | cons j rest ihl =>
    intro hs
    rw [List.sorted_cons] at hs
    obtain ⟨hj, hrest⟩ := hs
    rw [storeAdd]
    by_cases hij : i = j
    · subst hij
      rw [if_pos rfl, List.sorted_cons]
      exact ⟨hj, hrest⟩
    · rw [if_neg hij]
      by_cases hlt : i < j
      · rw [if_pos hlt, List.sorted_cons]
        refine ⟨?_, ?_⟩
        · intro b hb
          rcases List.mem_cons.mp hb with hb | hb
          · subst hb; exact hlt
          · exact lt_trans hlt (hj b hb)
        · rw [List.sorted_cons]
          exact ⟨hj, hrest⟩
      · rw [if_neg hlt, List.sorted_cons]
        refine ⟨?_, ihl hrest⟩
        intro b hb
        rcases (mem_storeAdd b i rest).mp hb with hb | hb
        · subst hb; omega
        · exact hj b hb

/-- Membership in the item collection loop of `queryRange`. -/
theorem mem_collectItems (t l b r : ℚ) (k : ℕ) :
    ∀ (its : List Item) (store : List ℕ),
      k ∈ collectItems its t l b r store ↔
        k ∈ store ∨ ∃ it ∈ its, it.i = k ∧ pointIsInBounds it.x it.y t l b r = true := by
  intro its
  induction its with
  | nil => simp [collectItems]
  | cons itm rest ihl =>
    intro store
    have hstep : collectItems (itm :: rest) t l b r store =
        collectItems rest t l b r
          (if pointIsInBounds itm.x itm.y t l b r then storeAdd itm.i store else store) := by
      rw [collectItems, collectItems, List.foldl_cons]
    rw [hstep, ihl]
    by_cases hin : pointIsInBounds itm.x itm.y t l b r = true
    · rw [if_pos hin, mem_storeAdd]
      constructor
      · rintro ((h | h) | h)
        · exact Or.inr ⟨itm, List.mem_cons_self _ _, h.symm, hin⟩
        · exact Or.inl h
        · obtain ⟨it, hmem, hik, hb⟩ := h
          exact Or.inr ⟨it, List.mem_cons_of_mem _ hmem, hik, hb⟩
      · rintro (h | ⟨it, hmem, hik, hb⟩)
        · exact Or.inl (Or.inr h)
        · rcases List.mem_cons.mp hmem with hmem | hmem
          · subst hmem; exact Or.inl (Or.inl hik.symm)
          · exact Or.inr ⟨it, hmem, hik, hb⟩
    · rw [if_neg hin]
      constructor
      · rintro (h | ⟨it, hmem, hik, hb⟩)
        · exact Or.inl h
        · exact Or.inr ⟨it, List.mem_cons_of_mem _ hmem, hik, hb⟩
      · rintro (h | ⟨it, hmem, hik, hb⟩)
        · exact Or.inl h
        · rcases List.mem_cons.mp hmem with hmem | hmem
          · subst hmem; exact absurd hb hin
          · exact Or.inr ⟨it, hmem, hik, hb⟩

/-- The item collection loop preserves strict sortedness. -/
theorem sorted_collectItems (t l b r : ℚ) :
    ∀ (its : List Item) (store : List ℕ),
      store.Sorted (· < ·) → (collectItems its t l b r store).Sorted (· < ·) := by
  intro its
  induction its with
  | nil =>
    intro store hs
    simpa [collectItems] using hs
  | cons itm rest ihl =>
    intro store hs
    have hstep : collectItems (itm :: rest) t l b r store =
        collectItems rest t l b r
          (if pointIsInBounds itm.x itm.y t l b r then storeAdd itm.i store else store) := by
      rw [collectItems, collectItems, List.foldl_cons]
    rw [hstep]
    apply ihl
    by_cases hin : pointIsInBounds itm.x itm.y t l b r = true
    · rw [if_pos hin]; exact sorted_storeAdd itm.i store hs
    · rw [if_neg hin]; exact hs

/-- A rectangle containing a point that also satisfies the query bounds test
intersects the query rectangle. -/
theorem intersect_of_contP_inB {r : Rect} {x y : Option ℚ} {t l b rr : ℚ}
    (hc : contP r x y = true) (hb : pointIsInBounds x y t l b rr = true) :
    rangesIntersect t l b rr r.top r.left r.bottom r.right = true := by
  obtain ⟨qx, qy, hx, hy⟩ := contP_exists_coords hc
  subst hx; subst hy
  rw [contP_some_iff] at hc
  simp only [pointIsInBounds, oge, ole, Bool.and_eq_true, decide_eq_true_eq] at hb
  simp only [rangesIntersect, Bool.and_eq_true, decide_eq_true_eq]
  obtain ⟨⟨⟨hb1, hb2⟩, hb3⟩, hb4⟩ := hb
  refine ⟨⟨⟨?_, ?_⟩, ?_⟩, ?_⟩ <;> linarith [hc.1, hc.2.1, hc.2.2.1, hc.2.2.2]

/-- `Node.queryRange` preserves strict sortedness of the store. -/
theorem sorted_queryRange (t l b r : ℚ) :
    ∀ (n : Node) (store : List ℕ),
      store.Sorted (· < ·) → (n.queryRange t l b r store).Sorted (· < ·) := by
  intro n
  induction n with
  | leafN rect dd its =>
    intro store hs
    rw [Node.queryRange]
    split
    · exact sorted_collectItems t l b r its store hs
    · exact hs
  | innerN rect dd its tl tr bl br ihtl ihtr ihbl ihbr =>
    intro store hs
    rw [Node.queryRange]
    split
    · exact sorted_collectItems t l b r its _ (ihbr _ (ihbl _ (ihtr _ (ihtl _ hs))))
    · exact hs

/-- Membership specification of `Node.queryRange` on a well-formed subtree:
an index is collected exactly when it belongs to an item of the subtree whose
point passes the inclusive bounds test against the query rectangle. -/
theorem mem_queryRange (o : Opts) (t l b r : ℚ) (k : ℕ) :
    ∀ (n : Node) (d : ℕ) (store : List ℕ), WFN o d n →
      (k ∈ n.queryRange t l b r store ↔
        k ∈ store ∨ ∃ it ∈ n.elems, it.i = k ∧
          pointIsInBounds it.x it.y t l b r = true) := by
  intro n
  induction n with
  | leafN rect dd its =>
    intro d store hwf
    rw [Node.queryRange]
    split
    · rw [mem_collectItems]
      simp [Node.elems]
    · next hni =>
      constructor
      · intro hk; exact Or.inl hk
      · rintro (hk | ⟨it, hmem, hik, hb⟩)
        · exact hk
        · exfalso
          have hc : contP rect it.x it.y = true := hwf.2.1 it hmem
          have := intersect_of_contP_inB hc hb
          simp only [Node.rect] at this
          exact hni (by simpa using this)
  | innerN rect dd its tl tr bl br ihtl ihtr ihbl ihbr =>
    intro d store hwf
    have hwfi := hwf
    rw [WFN] at hwfi
    obtain ⟨hdd, hits, hdm, hrw, e1, e2, e3, e4, w1, w2, w3, w4⟩ := hwfi
    rw [Node.queryRange]
    split
    · rw [mem_collectItems]
      rw [ihbr _ _ w4, ihbl _ _ w3, ihtr _ _ w2, ihtl _ _ w1]
      simp only [Node.elems, hits, List.nil_append, List.mem_append]
      constructor
      · rintro (((((hk | h) | h) | h) | h) | h)
        · exact Or.inl hk
        all_goals
          · right
            obtain ⟨it, hmem, rest⟩ := h
            exact ⟨it, by tauto, rest⟩
      · rintro (hk | ⟨it, hmem, rest⟩)
        · exact Or.inl (Or.inl (Or.inl (Or.inl (Or.inl hk))))
        · rcases hmem with ((hm | hm) | hm) | hm
          · exact Or.inl (Or.inl (Or.inl (Or.inl (Or.inr ⟨it, hm, rest⟩))))
          · exact Or.inl (Or.inl (Or.inl (Or.inr ⟨it, hm, rest⟩)))
          · exact Or.inl (Or.inl (Or.inr ⟨it, hm, rest⟩))
          · exact Or.inl (Or.inr ⟨it, hm, rest⟩)
    · next hni =>
      constructor
      · intro hk; exact Or.inl hk
      · rintro (hk | ⟨it, hmem, hik, hb⟩)
        · exact hk
        · exfalso
          have hc : contP (Node.innerN rect dd its tl tr bl br).rect it.x it.y = true :=
            elems_contP o _ d hwf it hmem
          simp only [Node.rect] at hc
          have := intersect_of_contP_inB hc hb
          exact hni (by simpa using this)

/-! State-level characterization: inserting a list of valid items one by
one through the public insert, starting from a fresh index. -/

/-- The wrapped items a list of raw items receives when appended starting at
backing-store position `base`. -/
def wrappedFrom : ℕ → List RawItem → List Item
  | _, [] => []
  | base, itm :: rest => ⟨itm.x, itm.y, base⟩ :: wrappedFrom (base + 1) rest

/-- The wrapped items that actually enter the tree: those whose point lies
within the root rectangle. -/
def inRootFrom (o : Opts) (base : ℕ) (l : List RawItem) : List Item :=
  (wrappedFrom base l).filter (fun it => contP o.rect it.x it.y)

/-- Insert a list of items one at a time through the public insert. -/
def runInserts : QTState → List RawItem → Except String QTState
  | s, [] => .ok s
  | s, itm :: rest =>
    match qtInsert s (.one itm) with
    | .error e => .error e
    | .ok s2 => runInserts s2 rest

/-- Effect of `runInserts` in non-debug mode on a state with a well-formed
tree spanning the root rectangle: it never throws, appends all items to the
backing store, and the tree contents grow by exactly the wrapped in-root
items. -/
theorem runInserts_spec (o : Opts) (hdbg : o.debug_mode = false) :
    ∀ (l : List RawItem) (s : QTState), s.opts = o → WFN o 0 s.tree →
      s.tree.rect = o.rect → (∀ itm ∈ l, checkIsValid itm = true) →
      ∃ t', runInserts s l = .ok ⟨o, t', s.allItems ++ l⟩ ∧ WFN o 0 t' ∧
        t'.rect = o.rect ∧
        t'.elems.Perm (s.tree.elems ++ inRootFrom o s.allItems.length l) := by
  intro l
  induction l with
  | nil =>
    intro s hso hwf hrect _
    refine ⟨s.tree, ?_, hwf, hrect, ?_⟩
    · rw [runInserts]
      rw [List.append_nil]
      rw [← hso]
    · simp only [inRootFrom, wrappedFrom]
      simp
  | cons itm rest ihl =>
    intro s hso hwf hrect hval
    have hv : checkIsValid itm = true := hval itm (List.mem_cons_self _ _)
    obtain ⟨t2, heq, hwf2, hrect2, hdep2, -, hpermT, hpermF⟩ :=
      insertF_spec o (topFuel o) 0 s.tree (itemToIndex itm s.allItems.length) hwf
        (thr_zero_le_topFuel o)
    have hstep : qtInsert s (.one itm) =
        .ok { s with tree := t2, allItems := s.allItems ++ [itm] } := by
      rw [qtInsert]
      simp only [hv, if_true, hso, heq, Bind.bind, Except.bind, hdbg]
      simp
    have hnext := ihl { s with tree := t2, allItems := s.allItems ++ [itm] }
      (by simp [hso]) hwf2 (by rw [hrect2, hrect])
      (fun x hx => hval x (List.mem_cons_of_mem _ hx))
    simp only [List.append_assoc, List.singleton_append, List.length_append,
      List.length_singleton] at hnext
    obtain ⟨t', hrun, hwf', hrect', hperm'⟩ := hnext
    refine ⟨t', ?_, hwf', hrect', ?_⟩
    · rw [runInserts, hstep]
      exact hrun
    · refine hperm'.trans ?_
      simp only [inRootFrom, wrappedFrom]
      cases hc : contP o.rect itm.x itm.y with
      | true =>
        have hc2 : contP s.tree.rect (itemToIndex itm s.allItems.length).x
            (itemToIndex itm s.allItems.length).y = true := by
          rw [hrect, itemToIndex]; exact hc
        have hp := hpermT hc2
        rw [List.filter_cons]
        simp only [itemToIndex] at hp ⊢
        rw [if_pos (by simp [hc])]
        refine (hp.append_right _).trans ?_
        rw [List.append_assoc]
        exact List.Perm.refl _
      | false =>
        have hc2 : contP s.tree.rect (itemToIndex itm s.allItems.length).x
            (itemToIndex itm s.allItems.length).y = false := by
          rw [hrect, itemToIndex]; exact hc
        rw [hpermF hc2]
        rw [List.filter_cons]
        simp only [itemToIndex]
        rw [if_neg (by simp [hc])]

/-- Membership in `wrappedFrom`: exactly the items of the list, wrapped with
their offset position. -/
theorem mem_wrappedFrom (it : Item) :
    ∀ (base : ℕ) (l : List RawItem),
      it ∈ wrappedFrom base l ↔
        ∃ j raw, l.get? j = some raw ∧ it = ⟨raw.x, raw.y, base + j⟩ := by
  intro base l
  induction l generalizing base with
  | nil => simp [wrappedFrom]
  | cons itm rest ihl =>
    rw [wrappedFrom]
    simp only [List.mem_cons, ihl (base + 1)]
    constructor
    · rintro (h | ⟨j, raw, hget, heq⟩)
      · exact ⟨0, itm, rfl, by simpa using h⟩
      · exact ⟨j + 1, raw, by simpa using hget, by rw [heq]; congr 1; omega⟩
    · rintro ⟨j, raw, hget, heq⟩
      cases j with
      | zero =>
        left
        simp only [List.get?_cons_zero, Option.some.injEq] at hget
        rw [heq, ← hget]
        simp
      | succ j =>
        right
        refine ⟨j, raw, by simpa using hget, by rw [heq]; congr 1; omega⟩

/-- Two strictly sorted lists with the same members are equal. -/
theorem sorted_eq_of_mem_iff :
    ∀ {l1 l2 : List ℕ}, l1.Sorted (· < ·) → l2.Sorted (· < ·) →
      (∀ k, k ∈ l1 ↔ k ∈ l2) → l1 = l2 := by
  intro l1
  induction l1 with
  | nil =>
    intro l2 _ _ h
    cases l2 with
    | nil => rfl
    | cons b t2 => exact absurd ((h b).mpr (List.mem_cons_self _ _)) (List.not_mem_nil b)
  | cons a t1 ihl =>
    intro l2 h1 h2 h
    cases l2 with
    | nil => exact absurd ((h a).mp (List.mem_cons_self _ _)) (List.not_mem_nil a)
    | cons b t2 =>
      rw [List.sorted_cons] at h1 h2
      have hab : a = b := by
        have ha := (h a).mp (List.mem_cons_self _ _)
        have hb := (h b).mpr (List.mem_cons_self _ _)
        rcases List.mem_cons.mp ha with ha' | ha'
        · exact ha'
        · rcases List.mem_cons.mp hb with hb' | hb'
          · exact hb'.symm
          · have := h2.1 a ha'
            have := h1.1 b hb'
            omega
      subst hab
      have htails : ∀ k, k ∈ t1 ↔ k ∈ t2 := by
        intro k
        constructor
        · intro hk
          have hka := h1.1 k hk
          rcases List.mem_cons.mp ((h k).mp (List.mem_cons_of_mem _ hk)) with hk' | hk'
          · omega
          · exact hk'
        · intro hk
          have hka := h2.1 k hk
          rcases List.mem_cons.mp ((h k).mpr (List.mem_cons_of_mem _ hk)) with hk' | hk'
          · omega
          · exact hk'
      rw [ihl h1.2 h2.2 htails]

/-- The fresh root is well-formed. -/
theorem rootNode_WFN (o : Opts) : WFN o 0 (rootNode o) :=
  ⟨rfl, fun x hx => absurd hx (List.not_mem_nil x), Or.inl (Nat.zero_le _)⟩

/-- The fresh root spans the configured root rectangle. -/
theorem rootNode_rect (o : Opts) : (rootNode o).rect = o.rect :=
  rfl

/-- Running inserts from a fresh index and then querying: the collected
index list is sorted and contains exactly the positions of the items that
lie within the root rectangle and satisfy the query bounds test. -/
theorem fresh_run_query (o : Opts) (hdbg : o.debug_mode = false)
    (l : List RawItem) (hval : ∀ itm ∈ l, checkIsValid itm = true)
    (qt ql qb qr : ℚ) :
    ∃ t', runInserts ⟨o, rootNode o, []⟩ l = .ok ⟨o, t', l⟩ ∧
      (∀ k : ℕ, k ∈ t'.queryRange qt ql qb qr [] ↔
        ∃ raw, l.get? k = some raw ∧ contP o.rect raw.x raw.y = true ∧
          pointIsInBounds raw.x raw.y qt ql qb qr = true) ∧
      (t'.queryRange qt ql qb qr []).Sorted (· < ·) := by
  obtain ⟨t', hrun, hwf', hrect', hperm'⟩ :=
    runInserts_spec o hdbg l ⟨o, rootNode o, []⟩ rfl (rootNode_WFN o) (rootNode_rect o) hval
  refine ⟨t', by simpa using hrun, ?_, sorted_queryRange qt ql qb qr t' [] (by simp)⟩
  intro k
  rw [mem_queryRange o qt ql qb qr k t' 0 [] hwf']
  simp only [List.not_mem_nil, false_or]
  constructor
  · rintro ⟨it, hmem, hik, hb⟩
    have hmem2 := hperm'.mem_iff.mp hmem
    simp only [rootNode, Node.elems, List.nil_append, inRootFrom, List.mem_filter] at hmem2
    obtain ⟨hw, hcont⟩ := hmem2
    obtain ⟨j, raw, hget, heq⟩ := (mem_wrappedFrom it 0 l).mp hw
    subst heq
    simp only at hik hb hcont
    have hjk : j = k := by omega
    subst hjk
    exact ⟨raw, hget, by simpa using hcont, hb⟩
  · rintro ⟨raw, hget, hcont, hb⟩
    refine ⟨⟨raw.x, raw.y, k⟩, ?_, rfl, hb⟩
    apply hperm'.mem_iff.mpr
    simp only [rootNode, Node.elems, List.nil_append, inRootFrom, List.mem_filter]
    refine ⟨?_, by simpa using hcont⟩
    rw [mem_wrappedFrom]
    exact ⟨k, raw, hget, by simp⟩

/-- C3 (amended): starting from a fresh non-debug index, after inserting any
list of valid items, an item value appears in the `queryRange` result iff it
occurs at some backing-store position whose point lies within the ROOT
rectangle and satisfies the inclusive bounds test against the query
rectangle.  (The claim as stated omits the root-rectangle condition; an item
outside the root is stored but never indexed, see the counterexample.)
Moreover the result sequence is independent of `max_per_cell` and
`max_depth`: any configuration with the same root bounds yields the same
result sequence. -/
theorem c3_membership_characterization (io : InitOptions) (l : List RawItem)
    (hdbg : (initOpts io).debug_mode = false)
    (hval : ∀ itm ∈ l, checkIsValid itm = true) (qt ql qb qr : ℚ) :
    ∃ s res, runInserts (initState io) l = .ok s ∧ s.allItems = l ∧
      qtQueryRange s qt ql qb qr = .ok res ∧
      (∀ raw : RawItem,
        some raw ∈ res ↔ ∃ k : ℕ, l.get? k = some raw ∧
          contP (initOpts io).rect raw.x raw.y = true ∧
          pointIsInBounds raw.x raw.y qt ql qb qr = true) ∧
      (∀ io2 : InitOptions, io2.top = io.top → io2.left = io.left →
        io2.bottom = io.bottom → io2.right = io.right →
        (initOpts io2).debug_mode = false →
        ∃ s2, runInserts (initState io2) l = .ok s2 ∧
          qtQueryRange s2 qt ql qb qr = .ok res) := by
  obtain ⟨t', hrun, hiff, hsort⟩ := fresh_run_query (initOpts io) hdbg l hval qt ql qb qr
  refine ⟨⟨initOpts io, t', l⟩, itemsByIndex l (t'.queryRange qt ql qb qr []), hrun, rfl,
    ?_, ?_, ?_⟩
  · rw [qtQueryRange]
    simp [isNumber]
  · intro raw
    rw [itemsByIndex, List.mem_map]
    constructor
    · rintro ⟨k, hk, hget⟩
      obtain ⟨raw2, hget2, hcont2, hb2⟩ := (hiff k).mp hk
      rw [hget2] at hget
      cases hget
      exact ⟨k, hget2, hcont2, hb2⟩
    · rintro ⟨k, hget, hcont, hb⟩
      exact ⟨k, (hiff k).mpr ⟨raw, hget, hcont, hb⟩, hget⟩
  · intro io2 ht hl hb hr hdbg2
    have hrect : (initOpts io2).rect = (initOpts io).rect := by
      rw [Opts.rect, Opts.rect, initOpts, initOpts]
      simp [ht, hl, hb, hr]
    have hval2 := hval
    obtain ⟨t2', hrun2, hiff2, hsort2⟩ :=
      fresh_run_query (initOpts io2) hdbg2 l hval2 qt ql qb qr
    have hidx : t2'.queryRange qt ql qb qr [] = t'.queryRange qt ql qb qr [] := by
      apply sorted_eq_of_mem_iff hsort2 hsort
      intro k
      rw [hiff k, hiff2 k, hrect]
    refine ⟨⟨initOpts io2, t2', l⟩, hrun2, ?_⟩
    rw [qtQueryRange]
    simp only [isNumber, Bool.and_self, if_true]
    rw [hidx]

/-- Every item of `l` dereferences `List.range` to the `some`-wrapped list. -/
theorem map_get_range (l : List RawItem) :
    (List.range l.length).map l.get? = l.map some := by
  apply List.ext_getElem
  · simp
  · intro i h1 h2
    simp only [List.getElem_map, List.getElem_range]
    rw [List.get?_eq_getElem?]
    simp only [List.length_map, List.length_range] at h1
    rw [List.getElem?_eq_getElem (by simpa using h1)]

/-- C4: starting from a fresh non-debug index, after inserting items whose
points all lie strictly inside the root rectangle, a `queryRange` whose
rectangle covers the whole root rectangle returns every inserted item
exactly once — the full result is the backing store itself, in order, each
item dereferenced exactly once (the collected index store has set
semantics, so no index is reported twice). -/
theorem c4_full_cover_returns_all_once (io : InitOptions) (l : List RawItem)
    (hdbg : (initOpts io).debug_mode = false)
    (hstrict : ∀ itm ∈ l, ∃ qx qy : ℚ, itm.x = some qx ∧ itm.y = some qy ∧
      (initOpts io).left < qx ∧ qx < (initOpts io).right ∧
      (initOpts io).top < qy ∧ qy < (initOpts io).bottom)
    (qt ql qb qr : ℚ)
    (hcov : qt ≤ (initOpts io).top ∧ ql ≤ (initOpts io).left ∧
      (initOpts io).bottom ≤ qb ∧ (initOpts io).right ≤ qr) :
    ∃ s, runInserts (initState io) l = .ok s ∧
      qtQueryRange s qt ql qb qr = .ok (l.map some) := by
  have hval : ∀ itm ∈ l, checkIsValid itm = true := by
    intro itm hm
    obtain ⟨qx, qy, hx, hy, -⟩ := hstrict itm hm
    rw [checkIsValid, hx, hy]
    rfl
  obtain ⟨t', hrun, hiff, hsort⟩ := fresh_run_query (initOpts io) hdbg l hval qt ql qb qr
  have hidx : t'.queryRange qt ql qb qr [] = List.range l.length := by
    apply sorted_eq_of_mem_iff hsort (List.sorted_lt_range _)
    intro k
    rw [hiff k, List.mem_range]
    constructor
    · rintro ⟨raw, hget, -⟩
      obtain ⟨hk, -⟩ := List.get?_eq_some.mp hget
      exact hk
    · intro hk
      refine ⟨l.get ⟨k, hk⟩, List.get?_eq_get hk, ?_, ?_⟩
      · obtain ⟨qx, qy, hx, hy, ha, hb2, hc, hd⟩ := hstrict _ (l.get_mem k hk)
        rw [hx, hy, contP_some_iff]
        refine ⟨le_of_lt ha, le_of_lt hb2, le_of_lt hc, le_of_lt hd⟩
      · obtain ⟨qx, qy, hx, hy, ha, hb2, hc, hd⟩ := hstrict _ (l.get_mem k hk)
        rw [hx, hy]
        simp only [pointIsInBounds, oge, ole, Bool.and_eq_true, decide_eq_true_eq]
        obtain ⟨hq1, hq2, hq3, hq4⟩ := hcov
        refine ⟨⟨⟨?_, ?_⟩, ?_⟩, ?_⟩ <;> linarith
  refine ⟨⟨initOpts io, t', l⟩, by simpa using hrun, ?_⟩
  rw [qtQueryRange]
  simp only [isNumber, Bool.and_self, if_true]
  rw [hidx, itemsByIndex]
  rw [show (fun i => l.get? i) = l.get? from rfl, map_get_range]

/-- Witness for the amended C3 at a concrete input. -/
theorem c3_amended_witness :
    ((initOpts exOptions).debug_mode = false) ∧
    (∀ itm ∈ [goodItem], checkIsValid itm = true) ∧
    (∃ s res, runInserts (initState exOptions) [goodItem] = .ok s ∧
      s.allItems = [goodItem] ∧
      qtQueryRange s 0 0 100 100 = .ok res ∧
      (∀ raw : RawItem,
        some raw ∈ res ↔ ∃ k : ℕ, [goodItem].get? k = some raw ∧
          contP (initOpts exOptions).rect raw.x raw.y = true ∧
          pointIsInBounds raw.x raw.y 0 0 100 100 = true) ∧
      (∀ io2 : InitOptions, io2.top = exOptions.top → io2.left = exOptions.left →
        io2.bottom = exOptions.bottom → io2.right = exOptions.right →
        (initOpts io2).debug_mode = false →
        ∃ s2, runInserts (initState io2) [goodItem] = .ok s2 ∧
          qtQueryRange s2 0 0 100 100 = .ok res)) :=
  ⟨by decide, by decide,
    c3_membership_characterization exOptions [goodItem] (by decide) (by decide) 0 0 100 100⟩

/-- Witness for C4 at a concrete input. -/
theorem c4_witness :
    ((initOpts exOptions).debug_mode = false) ∧
    (∀ itm ∈ [goodItem], ∃ qx qy : ℚ, itm.x = some qx ∧ itm.y = some qy ∧
      (initOpts exOptions).left < qx ∧ qx < (initOpts exOptions).right ∧
      (initOpts exOptions).top < qy ∧ qy < (initOpts exOptions).bottom) ∧
    ((0 : ℚ) ≤ (initOpts exOptions).top ∧ (0 : ℚ) ≤ (initOpts exOptions).left ∧
      (initOpts exOptions).bottom ≤ (100 : ℚ) ∧ (initOpts exOptions).right ≤ (100 : ℚ)) ∧
    (∃ s, runInserts (initState exOptions) [goodItem] = .ok s ∧
      qtQueryRange s 0 0 100 100 = .ok ([goodItem].map some)) :=
  ⟨by decide,
    by
      intro itm hm
      rw [List.mem_singleton] at hm
      subst hm
      exact ⟨1, 1, rfl, rfl, by decide, by decide, by decide, by decide⟩,
    ⟨by decide, by decide, by decide, by decide⟩,
    c4_full_cover_returns_all_once exOptions [goodItem] (by decide)
      (by
        intro itm hm
        rw [List.mem_singleton] at hm
        subst hm
        exact ⟨1, 1, rfl, rfl, by decide, by decide, by decide, by decide⟩)
      0 0 100 100 ⟨by decide, by decide, by decide, by decide⟩⟩

/-- A well-formed node's stored depth is its actual depth. -/
theorem WFN_depth (o : Opts) (d : ℕ) (n : Node) (h : WFN o d n) : n.depth = d := by
  cases n with
  | leafN r dd its => exact h.1
  | innerN r dd its tl tr bl br => exact h.1

/-- C7: the structural invariant of reachable nodes.  It holds for the root
created at construction and is preserved by every insert (which also never
turns a divided node back into a leaf — the transition is irreversible; the
query operation does not modify the tree at all in this embedding).  Every
well-formed divided node has an empty item list and exactly four children
whose rectangles are the exact midpoint quadrants of the parent's rectangle,
each at stored depth parent + 1; on a well-formed rectangle the quadrants
cover exactly the parent (no gaps), and a point lying in two different
quadrants lies on a shared midline edge (no overlaps except shared edges). -/
theorem c7_structural_invariant (o : Opts) :
    WFN o 0 (rootNode o) ∧
    (∀ fuel d n it, WFN o d n → thr o d ≤ fuel →
      ∃ n' b, insertF o fuel n it = .ok (n', b) ∧ WFN o d n' ∧
        (n.isInner = true → n'.isInner = true)) ∧
    (∀ d n, WFN o d n → n.isInner = true → n.items = []) ∧
    (∀ d r dd its tl tr bl br, WFN o d (.innerN r dd its tl tr bl br) →
      its = [] ∧ tl.rect = quadTL r ∧ tr.rect = quadTR r ∧ bl.rect = quadBL r ∧
        br.rect = quadBR r ∧ tl.depth = dd + 1 ∧ tr.depth = dd + 1 ∧
        bl.depth = dd + 1 ∧ br.depth = dd + 1) ∧
    (∀ r : Rect, rectWF r → ∀ x y : Option ℚ, contP r x y = kidContains r x y) ∧
    (∀ r : Rect, ∀ qx qy : ℚ,
      ((contP (quadTL r) (some qx) (some qy) = true ∧
          contP (quadTR r) (some qx) (some qy) = true) ∨
        (contP (quadTL r) (some qx) (some qy) = true ∧
          contP (quadBL r) (some qx) (some qy) = true) ∨
        (contP (quadTL r) (some qx) (some qy) = true ∧
          contP (quadBR r) (some qx) (some qy) = true) ∨
        (contP (quadTR r) (some qx) (some qy) = true ∧
          contP (quadBL r) (some qx) (some qy) = true) ∨
        (contP (quadTR r) (some qx) (some qy) = true ∧
          contP (quadBR r) (some qx) (some qy) = true) ∨
        (contP (quadBL r) (some qx) (some qy) = true ∧
          contP (quadBR r) (some qx) (some qy) = true)) →
      qx = r.left + (r.right - r.left) / 2 ∨ qy = r.top + (r.bottom - r.top) / 2) := by
  refine ⟨rootNode_WFN o, ?_, ?_, ?_, ?_, ?_⟩
  · intro fuel d n it hwf hf
    obtain ⟨n', heq, hwf', -, -, hinner, -, -⟩ := insertF_spec o fuel d n it hwf hf
    exact ⟨n', contP n.rect it.x it.y, heq, hwf', hinner⟩
  · intro d n hwf hinner
    cases n with
    | leafN r dd its => cases hinner
    | innerN r dd its tl tr bl br =>
      rw [Node.items]
      exact hwf.2.1
  · intro d r dd its tl tr bl br hwf
    obtain ⟨hdd, hits, hdm, hrw, e1, e2, e3, e4, w1, w2, w3, w4⟩ := hwf
    subst hdd
    exact ⟨hits, e1, e2, e3, e4, WFN_depth o _ tl w1, WFN_depth o _ tr w2,
      WFN_depth o _ bl w3, WFN_depth o _ br w4⟩
  · intro r hrw x y
    exact (kidContains_eq_contP hrw x y).symm
  · intro r qx qy hpair
    rcases hpair with ⟨h1, h2⟩ | ⟨h1, h2⟩ | ⟨h1, h2⟩ | ⟨h1, h2⟩ | ⟨h1, h2⟩ | ⟨h1, h2⟩ <;>
      rw [contP_some_iff] at h1 h2 <;>
      simp only [quadTL, quadTR, quadBL, quadBR] at h1 h2
    · left; linarith [h1.2.1, h2.1]
    · right; linarith [h1.2.2.2, h2.2.2.1]
    · left; linarith [h1.2.1, h2.1]
    · right; linarith [h1.2.2.2, h2.2.2.1]
    · right; linarith [h1.2.2.2, h2.2.2.1]
    · left; linarith [h1.2.1, h2.1]

/-- Witness for C7 at a concrete input: the invariant holds for the concrete
fresh root and is preserved by a concrete insert. -/
theorem c7_witness :
    WFN (initOpts exOptions) 0 (rootNode (initOpts exOptions)) ∧
    thr (initOpts exOptions) 0 ≤ topFuel (initOpts exOptions) ∧
    (∃ n' b, insertF (initOpts exOptions) (topFuel (initOpts exOptions))
        (rootNode (initOpts exOptions)) ⟨some 1, some 1, 0⟩ = .ok (n', b) ∧
      WFN (initOpts exOptions) 0 n' ∧
      ((rootNode (initOpts exOptions)).isInner = true → n'.isInner = true)) :=
  ⟨(c7_structural_invariant (initOpts exOptions)).1, thr_zero_le_topFuel _,
    (c7_structural_invariant (initOpts exOptions)).2.1 (topFuel (initOpts exOptions)) 0
      (rootNode (initOpts exOptions)) ⟨some 1, some 1, 0⟩ (rootNode_WFN _)
      (thr_zero_le_topFuel _)⟩

/-! C6: coincident insertions form a single chain down to the depth cap. -/

/-- The index (0 = tl, 1 = tr, 2 = bl, 3 = br) of the first child, in the
fixed delegation order, whose quadrant contains the point `(qx, qy)` of the
parent rectangle. -/
def quadOf (r : Rect) (qx qy : ℚ) : ℕ :=
  if qy ≤ r.top + (r.bottom - r.top) / 2 then
    if qx ≤ r.left + (r.right - r.left) / 2 then 0 else 1
  else
    if qx ≤ r.left + (r.right - r.left) / 2 then 2 else 3

/-- The four children of a chain node: all quadrant leaves are empty except
the one at position `q`, which holds `acc`. -/
def chainKids (r : Rect) (d : ℕ) (q : ℕ) (acc : List Item) : Kids :=
  (.leafN (quadTL r) d (if q = 0 then acc else []),
   .leafN (quadTR r) d (if q = 1 then acc else []),
   .leafN (quadBL r) d (if q = 2 then acc else []),
   .leafN (quadBR r) d (if q = 3 then acc else []))

/-- For a point of the parent rectangle, the quadrants before `quadOf` do
not contain it, and the quadrant at `quadOf` does. -/
theorem quadOf_spec (r : Rect) (qx qy : ℚ)
    (hc : contP r (some qx) (some qy) = true) :
    (quadOf r qx qy = 0 ∧ contP (quadTL r) (some qx) (some qy) = true) ∨
    (quadOf r qx qy = 1 ∧ contP (quadTL r) (some qx) (some qy) = false ∧
      contP (quadTR r) (some qx) (some qy) = true) ∨
    (quadOf r qx qy = 2 ∧ contP (quadTL r) (some qx) (some qy) = false ∧
      contP (quadTR r) (some qx) (some qy) = false ∧
      contP (quadBL r) (some qx) (some qy) = true) ∨
    (quadOf r qx qy = 3 ∧ contP (quadTL r) (some qx) (some qy) = false ∧
      contP (quadTR r) (some qx) (some qy) = false ∧
      contP (quadBL r) (some qx) (some qy) = false ∧
      contP (quadBR r) (some qx) (some qy) = true) := by
  rw [contP_some_iff] at hc
  obtain ⟨h1, h2, h3, h4⟩ := hc
  rw [quadOf]
  by_cases hy : qy ≤ r.top + (r.bottom - r.top) / 2 <;>
    by_cases hx : qx ≤ r.left + (r.right - r.left) / 2
  · left
    rw [if_pos hy, if_pos hx]
    refine ⟨rfl, ?_⟩
    rw [contP_some_iff]
    exact ⟨h1, by simpa [quadTL] using hx, h3, by simpa [quadTL] using hy⟩
  · right; left
    rw [if_pos hy, if_neg hx]
    push_neg at hx
    refine ⟨rfl, ?_, ?_⟩
    · rw [Bool.eq_false_iff]
      intro hcon
      rw [contP_some_iff] at hcon
      simp only [quadTL] at hcon
      linarith [hcon.2.1]
    · rw [contP_some_iff]
      simp only [quadTR]
      exact ⟨le_of_lt hx, h2, h3, hy⟩
  · right; right; left
    rw [if_neg hy, if_pos hx]
    push_neg at hy
    refine ⟨rfl, ?_, ?_, ?_⟩
    · rw [Bool.eq_false_iff]
      intro hcon
      rw [contP_some_iff] at hcon
      simp only [quadTL] at hcon
      linarith [hcon.2.2.2]
    · rw [Bool.eq_false_iff]
      intro hcon
      rw [contP_some_iff] at hcon
      simp only [quadTR] at hcon
      linarith [hcon.2.2.2]
    · rw [contP_some_iff]
      simp only [quadBL]
      exact ⟨h1, hx, le_of_lt hy, h4⟩
  · right; right; right
    rw [if_neg hy, if_neg hx]
    push_neg at hy hx
    refine ⟨rfl, ?_, ?_, ?_, ?_⟩
    · rw [Bool.eq_false_iff]
      intro hcon
      rw [contP_some_iff] at hcon
      simp only [quadTL] at hcon
      linarith [hcon.2.1]
    · rw [Bool.eq_false_iff]
      intro hcon
      rw [contP_some_iff] at hcon
      simp only [quadTR] at hcon
      linarith [hcon.2.2.2]
    · rw [Bool.eq_false_iff]
      intro hcon
      rw [contP_some_iff] at hcon
      simp only [quadBL] at hcon
      linarith [hcon.2.1]
    · rw [contP_some_iff]
      simp only [quadBR]
      exact ⟨le_of_lt hx, h2, le_of_lt hy, h4⟩

/-- A leaf rejects an item whose point is out of its bounds, unchanged. -/
theorem insertF_leaf_reject (o : Opts) (fuel d : ℕ) (r : Rect) (its : List Item)
    (it : Item) (hc : contP r it.x it.y = false) :
    insertF o (fuel + 1) (.leafN r d its) it = .ok (.leafN r d its, false) := by
  simp only [insertF, hc, Bool.false_eq_true, if_false]

/-- A leaf with room (or at the depth cap) accepts an in-bounds item by
appending it. -/
theorem insertF_leaf_push (o : Opts) (fuel d : ℕ) (r : Rect) (its : List Item)
    (it : Item) (hc : contP r it.x it.y = true)
    (hroom : its.length < o.max_per_cell ∨ o.max_depth ≤ d) :
    insertF o (fuel + 1) (.leafN r d its) it = .ok (.leafN r d (its ++ [it]), true) := by
  simp only [insertF, hc, if_true, if_pos hroom]

/-- The chain structure of a tree built solely from coincident insertions at
`(qx, qy)`: every divided node on the path has three empty quadrant leaves
and one chained child (the first quadrant containing the point, in the
delegation order), and the terminal leaf holds the full item list `its0`. -/
def ChainP (o : Opts) (qx qy : ℚ) : ℕ → Node → List Item → Prop
  | d, .leafN r dd its, its0 =>
    dd = d ∧ its = its0 ∧ contP r (some qx) (some qy) = true ∧
      (∀ it ∈ its, it.x = some qx ∧ it.y = some qy) ∧
      (its.length ≤ o.max_per_cell ∨ o.max_depth ≤ d)
  | d, .innerN r dd its tl tr bl br, its0 =>
    dd = d ∧ its = [] ∧ d < o.max_depth ∧ contP r (some qx) (some qy) = true ∧
      ((quadOf r qx qy = 0 ∧ tl.rect = quadTL r ∧ ChainP o qx qy (d + 1) tl its0 ∧
          tr = .leafN (quadTR r) (d + 1) [] ∧ bl = .leafN (quadBL r) (d + 1) [] ∧
          br = .leafN (quadBR r) (d + 1) []) ∨
        (quadOf r qx qy = 1 ∧ tl = .leafN (quadTL r) (d + 1) [] ∧
          tr.rect = quadTR r ∧ ChainP o qx qy (d + 1) tr its0 ∧
          bl = .leafN (quadBL r) (d + 1) [] ∧ br = .leafN (quadBR r) (d + 1) []) ∨
        (quadOf r qx qy = 2 ∧ tl = .leafN (quadTL r) (d + 1) [] ∧
          tr = .leafN (quadTR r) (d + 1) [] ∧ bl.rect = quadBL r ∧
          ChainP o qx qy (d + 1) bl its0 ∧ br = .leafN (quadBR r) (d + 1) []) ∨
        (quadOf r qx qy = 3 ∧ tl = .leafN (quadTL r) (d + 1) [] ∧
          tr = .leafN (quadTR r) (d + 1) [] ∧ bl = .leafN (quadBL r) (d + 1) [] ∧
          br.rect = quadBR r ∧ ChainP o qx qy (d + 1) br its0))

/-- With an empty accumulator, `chainKids` are the four fresh leaves that
`divide` constructs. -/
theorem chainKids_nil (r : Rect) (d q : ℕ) :
    chainKids r d q [] =
      (.leafN (quadTL r) d [], .leafN (quadTR r) d [],
       .leafN (quadBL r) d [], .leafN (quadBR r) d []) := by
  simp [chainKids]

/-- Redistribution of coincident items into fresh quadrant children: every
item lands, in order, in the single quadrant selected by `quadOf`. -/
theorem redist_coincident (o : Opts) (r : Rect) (qx qy : ℚ)
    (hc : contP r (some qx) (some qy) = true) :
    ∀ (its acc : List Item) (d fuel : ℕ),
      (∀ it ∈ its, it.x = some qx ∧ it.y = some qy) →
      acc.length + its.length ≤ o.max_per_cell →
      its.length + 2 ≤ fuel →
      redistF o fuel r its (chainKids r d (quadOf r qx qy) acc) =
        .ok (chainKids r d (quadOf r qx qy) (acc ++ its)) := by
  intro its
  induction its with
  | nil =>
    intro acc d fuel _ _ hfuel
    obtain ⟨f, rfl⟩ : ∃ f, fuel = f + 1 := ⟨fuel - 1, by omega⟩
    rw [redistF, List.append_nil]
  | cons itm rest ihl =>
    intro acc d fuel hco hlen hfuel
    obtain ⟨f3, rfl⟩ : ∃ f3, fuel = f3 + 1 + 1 + 1 := ⟨fuel - 3, by
      simp only [List.length_cons] at hfuel; omega⟩
    obtain ⟨hcx, hcy⟩ := hco itm (List.mem_cons_self _ _)
    have hcm : contP r itm.x itm.y = true := by rw [hcx, hcy]; exact hc
    have hacc : acc.length < o.max_per_cell := by
      simp only [List.length_cons] at hlen; omega
    rw [redistF, if_pos hcm]
    rcases quadOf_spec r qx qy hc with ⟨hq, c1⟩ | ⟨hq, c1, c2⟩ | ⟨hq, c1, c2, c3⟩ |
      ⟨hq, c1, c2, c3, c4⟩ <;>
      rw [hq] <;>
      simp only [chainKids] <;>
      norm_num <;>
      rw [tryKidsF] <;>
      simp only [Bind.bind, Except.bind]
    · rw [insertF_leaf_push o f3 d (quadTL r) acc itm
        (by rw [hcx, hcy]; exact c1) (Or.inl hacc)]
      simp only [if_true]
      have := ihl (acc ++ [itm]) d (f3 + 1 + 1)
        (fun x hx => hco x (List.mem_cons_of_mem _ hx))
        (by simp only [List.length_append, List.length_cons, List.length_nil] at hlen ⊢; omega)
        (by simp only [List.length_cons] at hfuel; omega)
      rw [hq] at this
      simp only [chainKids] at this
      norm_num at this
      rw [this]
      simp
    · rw [insertF_leaf_reject o f3 d (quadTL r) [] itm (by rw [hcx, hcy]; exact c1)]
      simp only [Bool.false_eq_true, if_false]
      rw [insertF_leaf_push o f3 d (quadTR r) acc itm
        (by rw [hcx, hcy]; exact c2) (Or.inl hacc)]
      simp only [if_true]
      have := ihl (acc ++ [itm]) d (f3 + 1 + 1)
        (fun x hx => hco x (List.mem_cons_of_mem _ hx))
        (by simp only [List.length_append, List.length_cons, List.length_nil] at hlen ⊢; omega)
        (by simp only [List.length_cons] at hfuel; omega)
      rw [hq] at this
      simp only [chainKids] at this
      norm_num at this
      rw [this]
      simp
    · rw [insertF_leaf_reject o f3 d (quadTL r) [] itm (by rw [hcx, hcy]; exact c1)]
      simp only [Bool.false_eq_true, if_false]
      rw [insertF_leaf_reject o f3 d (quadTR r) [] itm (by rw [hcx, hcy]; exact c2)]
      simp only [Bool.false_eq_true, if_false]
      rw [insertF_leaf_push o f3 d (quadBL r) acc itm
        (by rw [hcx, hcy]; exact c3) (Or.inl hacc)]
      simp only [if_true]
      have := ihl (acc ++ [itm]) d (f3 + 1 + 1)
        (fun x hx => hco x (List.mem_cons_of_mem _ hx))
        (by simp only [List.length_append, List.length_cons, List.length_nil] at hlen ⊢; omega)
        (by simp only [List.length_cons] at hfuel; omega)
      rw [hq] at this
      simp only [chainKids] at this
      norm_num at this
      rw [this]
      simp
    · rw [insertF_leaf_reject o f3 d (quadTL r) [] itm (by rw [hcx, hcy]; exact c1)]
      simp only [Bool.false_eq_true, if_false]
      rw [insertF_leaf_reject o f3 d (quadTR r) [] itm (by rw [hcx, hcy]; exact c2)]
      simp only [Bool.false_eq_true, if_false]
      rw [insertF_leaf_reject o f3 d (quadBL r) [] itm (by rw [hcx, hcy]; exact c3)]
      simp only [Bool.false_eq_true, if_false]
      rw [insertF_leaf_push o f3 d (quadBR r) acc itm
        (by rw [hcx, hcy]; exact c4) (Or.inl hacc)]
      simp only []
      have := ihl (acc ++ [itm]) d (f3 + 1 + 1)
        (fun x hx => hco x (List.mem_cons_of_mem _ hx))
        (by simp only [List.length_append, List.length_cons, List.length_nil] at hlen ⊢; omega)
        (by simp only [List.length_cons] at hfuel; omega)
      rw [hq] at this
      simp only [chainKids] at this
      norm_num at this
      rw [this]
      simp

/-- Quadrant containment facts keyed by the value of `quadOf`. -/
theorem quadOf_case (r : Rect) (qx qy : ℚ)
    (hc : contP r (some qx) (some qy) = true) :
    (quadOf r qx qy = 0 → contP (quadTL r) (some qx) (some qy) = true) ∧
    (quadOf r qx qy = 1 → contP (quadTL r) (some qx) (some qy) = false ∧
      contP (quadTR r) (some qx) (some qy) = true) ∧
    (quadOf r qx qy = 2 → contP (quadTL r) (some qx) (some qy) = false ∧
      contP (quadTR r) (some qx) (some qy) = false ∧
      contP (quadBL r) (some qx) (some qy) = true) ∧
    (quadOf r qx qy = 3 → contP (quadTL r) (some qx) (some qy) = false ∧
      contP (quadTR r) (some qx) (some qy) = false ∧
      contP (quadBL r) (some qx) (some qy) = false ∧
      contP (quadBR r) (some qx) (some qy) = true) := by
  rcases quadOf_spec r qx qy hc with ⟨hq, h1⟩ | ⟨hq, h1, h2⟩ | ⟨hq, h1, h2, h3⟩ |
    ⟨hq, h1, h2, h3, h4⟩ <;>
    rw [hq] <;>
    refine ⟨?_, ?_, ?_, ?_⟩ <;>
    intro hlit <;>
    first
      | exact h1
      | exact ⟨h1, h2⟩
      | exact ⟨h1, h2, h3⟩
      | exact ⟨h1, h2, h3, h4⟩
      | exact absurd hlit (by omega)

/-- Inserting another coincident item into a chain tree with enough fuel
succeeds, appends the item to the single accumulating leaf, and preserves
the chain shape and the node's rectangle. -/
theorem chain_insert (o : Opts) (qx qy : ℚ) :
    ∀ (k d : ℕ) (n : Node) (its0 : List Item) (fuel : ℕ) (it : Item),
      it.x = some qx → it.y = some qy →
      o.max_depth - d ≤ k → ChainP o qx qy d n its0 → thr o d ≤ fuel →
      ∃ n', insertF o fuel n it = .ok (n', true) ∧
        ChainP o qx qy d n' (its0 ++ [it]) ∧ n'.rect = n.rect := by
  intro k
  induction k with
  | zero =>
    intro d n its0 fuel it hx hy hk hch hf
    have hdm : o.max_depth ≤ d := by omega
    cases n with
    | leafN r dd its =>
      obtain ⟨hdd, hits, hc, hco, hbound⟩ := hch
      subst hdd
      subst its0
      obtain ⟨f, rfl⟩ : ∃ f, fuel = f + 1 := ⟨fuel - 1, by have := thr_pos o dd; omega⟩
      have hcit : contP r it.x it.y = true := by rw [hx, hy]; exact hc
      refine ⟨.leafN r dd (its ++ [it]),
        insertF_leaf_push o f dd r its it hcit (Or.inr hdm), ?_, rfl⟩
      refine ⟨rfl, rfl, hc, ?_, Or.inr hdm⟩
      intro x hmx
      rcases List.mem_append.mp hmx with hmx | hmx
      · exact hco x hmx
      · rw [List.mem_singleton.mp hmx]; exact ⟨hx, hy⟩
    | innerN r dd its tl tr bl br =>
      obtain ⟨-, -, hdlt, -⟩ := hch
      omega
  | succ k ihk =>
    intro d n its0 fuel it hx hy hk hch hf
    cases n with
    | leafN r dd its =>
      obtain ⟨hdd, hits, hc, hco, hbound⟩ := hch
      subst hdd
      subst its
      have hcit : contP r it.x it.y = true := by rw [hx, hy]; exact hc
      by_cases hroom : its0.length < o.max_per_cell ∨ o.max_depth ≤ dd
      · obtain ⟨f, rfl⟩ : ∃ f, fuel = f + 1 := ⟨fuel - 1, by have := thr_pos o dd; omega⟩
        refine ⟨.leafN r dd (its0 ++ [it]),
          insertF_leaf_push o f dd r its0 it hcit hroom, ?_, rfl⟩
        refine ⟨rfl, rfl, hc, ?_, ?_⟩
        · intro x hmx
          rcases List.mem_append.mp hmx with hmx | hmx
          · exact hco x hmx
          · rw [List.mem_singleton.mp hmx]; exact ⟨hx, hy⟩
        · rcases hroom with hroom | hroom
          · left; rw [List.length_append, List.length_singleton]; omega
          · right; exact hroom
      · push_neg at hroom
        obtain ⟨hfull, hcap⟩ := hroom
        have hthr : thr o dd = thr o (dd + 1) + (o.max_per_cell + 4) := thr_succ o dd hcap
        have hlen : its0.length ≤ o.max_per_cell := by
          rcases hbound with h | h
          · exact h
          · omega
        obtain ⟨f2, rfl⟩ : ∃ f2, fuel = f2 + 1 + 1 := ⟨fuel - 2, by
          have := thr_pos o (dd + 1); omega⟩
        -- the chained quadrant child after redistribution
        have hchild0 : ∀ rq : Rect, contP rq (some qx) (some qy) = true →
            ChainP o qx qy (dd + 1) (.leafN rq (dd + 1) its0) its0 :=
          fun rq hrq => ⟨rfl, rfl, hrq, hco, Or.inl hlen⟩
        have hredist := redist_coincident o r qx qy hc its0 [] (dd + 1) (f2 + 1) hco
          (by simpa using hlen) (by omega)
        rw [chainKids_nil] at hredist
        obtain ⟨f3, rfl⟩ : ∃ f3, f2 = f3 + 1 := ⟨f2 - 1, by
          have := thr_pos o (dd + 1); omega⟩
        have hfc : thr o (dd + 1) ≤ f3 + 1 := by omega
        have hkc : o.max_depth - (dd + 1) ≤ k := by omega
        rw [show f3 + 1 + 1 + 1 = (f3 + 1 + 1) + 1 from rfl]
        rw [insertF]
        simp only [hcit, if_true, if_neg (show ¬(its0.length < o.max_per_cell ∨
          o.max_depth ≤ dd) from by omega), hredist, Bind.bind, Except.bind]
        rcases quadOf_spec r qx qy hc with ⟨hq, c1⟩ | ⟨hq, c1, c2⟩ | ⟨hq, c1, c2, c3⟩ |
          ⟨hq, c1, c2, c3, c4⟩
        · obtain ⟨child', hchEq, hchP, hchR⟩ := ihk (dd + 1)
            (.leafN (quadTL r) (dd + 1) its0) its0 (f3 + 1) it hx hy hkc
            (hchild0 (quadTL r) c1) hfc
          rw [hq]
          simp only [chainKids]
          norm_num
          rw [tryKidsF]
          simp only [Bind.bind, Except.bind, hchEq, if_true]
          refine ⟨.innerN r dd [] child' (.leafN (quadTR r) (dd + 1) [])
            (.leafN (quadBL r) (dd + 1) []) (.leafN (quadBR r) (dd + 1) []), by simp, ?_, rfl⟩
          refine ⟨rfl, rfl, hcap, hc, Or.inl ⟨hq, ?_, hchP, rfl, rfl, rfl⟩⟩
          rw [hchR]
          rfl
        · obtain ⟨child', hchEq, hchP, hchR⟩ := ihk (dd + 1)
            (.leafN (quadTR r) (dd + 1) its0) its0 (f3 + 1) it hx hy hkc
            (hchild0 (quadTR r) c2) hfc
          rw [hq]
          simp only [chainKids]
          norm_num
          rw [tryKidsF]
          simp only [Bind.bind, Except.bind]
          rw [insertF_leaf_reject o f3 (dd + 1) (quadTL r) [] it (by rw [hx, hy]; exact c1)]
          simp only [Bool.false_eq_true, if_false, hchEq, if_true]
          refine ⟨.innerN r dd [] (.leafN (quadTL r) (dd + 1) []) child'
            (.leafN (quadBL r) (dd + 1) []) (.leafN (quadBR r) (dd + 1) []), by simp, ?_, rfl⟩
          refine ⟨rfl, rfl, hcap, hc, Or.inr (Or.inl ⟨hq, rfl, ?_, hchP, rfl, rfl⟩)⟩
          rw [hchR]
          rfl
        · obtain ⟨child', hchEq, hchP, hchR⟩ := ihk (dd + 1)
            (.leafN (quadBL r) (dd + 1) its0) its0 (f3 + 1) it hx hy hkc
            (hchild0 (quadBL r) c3) hfc
          rw [hq]
          simp only [chainKids]
          norm_num
          rw [tryKidsF]
          simp only [Bind.bind, Except.bind]
          rw [insertF_leaf_reject o f3 (dd + 1) (quadTL r) [] it (by rw [hx, hy]; exact c1)]
          simp only [Bool.false_eq_true, if_false]
          rw [insertF_leaf_reject o f3 (dd + 1) (quadTR r) [] it (by rw [hx, hy]; exact c2)]
          simp only [Bool.false_eq_true, if_false, hchEq, if_true]
          refine ⟨.innerN r dd [] (.leafN (quadTL r) (dd + 1) [])
            (.leafN (quadTR r) (dd + 1) []) child' (.leafN (quadBR r) (dd + 1) []),
            by simp, ?_, rfl⟩
          refine ⟨rfl, rfl, hcap, hc,
            Or.inr (Or.inr (Or.inl ⟨hq, rfl, rfl, ?_, hchP, rfl⟩))⟩
          rw [hchR]
          rfl
        · obtain ⟨child', hchEq, hchP, hchR⟩ := ihk (dd + 1)
            (.leafN (quadBR r) (dd + 1) its0) its0 (f3 + 1) it hx hy hkc
            (hchild0 (quadBR r) c4) hfc
          rw [hq]
          simp only [chainKids]
          norm_num
          rw [tryKidsF]
          simp only [Bind.bind, Except.bind]
          rw [insertF_leaf_reject o f3 (dd + 1) (quadTL r) [] it (by rw [hx, hy]; exact c1)]
          simp only [Bool.false_eq_true, if_false]
          rw [insertF_leaf_reject o f3 (dd + 1) (quadTR r) [] it (by rw [hx, hy]; exact c2)]
          simp only [Bool.false_eq_true, if_false]
          rw [insertF_leaf_reject o f3 (dd + 1) (quadBL r) [] it (by rw [hx, hy]; exact c3)]
          simp only [Bool.false_eq_true, if_false, hchEq]
          refine ⟨.innerN r dd [] (.leafN (quadTL r) (dd + 1) [])
            (.leafN (quadTR r) (dd + 1) []) (.leafN (quadBL r) (dd + 1) []) child',
            by simp, ?_, rfl⟩
          refine ⟨rfl, rfl, hcap, hc,
            Or.inr (Or.inr (Or.inr ⟨hq, rfl, rfl, rfl, ?_, hchP⟩))⟩
          rw [hchR]
          rfl
    | innerN r dd its tl tr bl br =>
      obtain ⟨hdd, hits, hdlt, hc, hdisj⟩ := hch
      subst hdd
      subst hits
      have hcit : contP r it.x it.y = true := by rw [hx, hy]; exact hc
      have hthr : thr o dd = thr o (dd + 1) + (o.max_per_cell + 4) := thr_succ o dd hdlt
      obtain ⟨f2, rfl⟩ : ∃ f2, fuel = f2 + 1 + 1 := ⟨fuel - 2, by
        have := thr_pos o (dd + 1); omega⟩
      have hfc : thr o (dd + 1) ≤ f2 := by omega
      have hkc : o.max_depth - (dd + 1) ≤ k := by omega
      rw [insertF]
      simp only [hcit, if_true, Bind.bind, Except.bind]
      rw [tryKidsF]
      simp only [Bind.bind, Except.bind]
      rcases hdisj with ⟨hq, hrtl, hchtl, htr, hbl, hbr⟩ | ⟨hq, htl, hrtr, hchtr, hbl, hbr⟩ |
        ⟨hq, htl, htr, hrbl, hchbl, hbr⟩ | ⟨hq, htl, htr, hbl, hrbr, hchbr⟩
      · obtain ⟨child', hchEq, hchP, hchR⟩ := ihk (dd + 1) tl its0 f2 it hx hy hkc
          hchtl hfc
        rw [hchEq]
        simp only [if_true]
        refine ⟨.innerN r dd [] child' tr bl br, by simp, ?_, rfl⟩
        exact ⟨rfl, rfl, hdlt, hc, Or.inl ⟨hq, by rw [hchR, hrtl], hchP, htr, hbl, hbr⟩⟩
      · obtain ⟨hTL, -⟩ := (quadOf_case r qx qy hc).2.1 hq
        obtain ⟨child', hchEq, hchP, hchR⟩ := ihk (dd + 1) tr its0 f2 it hx hy hkc
          hchtr hfc
        obtain ⟨f3, rfl⟩ : ∃ f3, f2 = f3 + 1 := ⟨f2 - 1, by
          have := thr_pos o (dd + 1); omega⟩
        rw [htl, insertF_leaf_reject o f3 (dd + 1) (quadTL r) [] it
          (by rw [hx, hy]; exact hTL)]
        simp only [Bool.false_eq_true, if_false]
        rw [hchEq]
        simp only [if_true]
        refine ⟨.innerN r dd [] (.leafN (quadTL r) (dd + 1) []) child' bl br, by simp, ?_, rfl⟩
        exact ⟨rfl, rfl, hdlt, hc,
          Or.inr (Or.inl ⟨hq, rfl, by rw [hchR, hrtr], hchP, hbl, hbr⟩)⟩
      · obtain ⟨hTL, hTR, -⟩ := (quadOf_case r qx qy hc).2.2.1 hq
        obtain ⟨child', hchEq, hchP, hchR⟩ := ihk (dd + 1) bl its0 f2 it hx hy hkc
          hchbl hfc
        obtain ⟨f3, rfl⟩ : ∃ f3, f2 = f3 + 1 := ⟨f2 - 1, by
          have := thr_pos o (dd + 1); omega⟩
        rw [htl, insertF_leaf_reject o f3 (dd + 1) (quadTL r) [] it
          (by rw [hx, hy]; exact hTL)]
        simp only [Bool.false_eq_true, if_false]
        rw [htr, insertF_leaf_reject o f3 (dd + 1) (quadTR r) [] it
          (by rw [hx, hy]; exact hTR)]
        simp only [Bool.false_eq_true, if_false]
        rw [hchEq]
        simp only [if_true]
        refine ⟨.innerN r dd [] (.leafN (quadTL r) (dd + 1) [])
          (.leafN (quadTR r) (dd + 1) []) child' br, by simp, ?_, rfl⟩
        exact ⟨rfl, rfl, hdlt, hc,
          Or.inr (Or.inr (Or.inl ⟨hq, rfl, rfl, by rw [hchR, hrbl], hchP, hbr⟩))⟩
      · obtain ⟨hTL, hTR, hBL, -⟩ := (quadOf_case r qx qy hc).2.2.2 hq
        obtain ⟨child', hchEq, hchP, hchR⟩ := ihk (dd + 1) br its0 f2 it hx hy hkc
          hchbr hfc
        obtain ⟨f3, rfl⟩ : ∃ f3, f2 = f3 + 1 := ⟨f2 - 1, by
          have := thr_pos o (dd + 1); omega⟩
        rw [htl, insertF_leaf_reject o f3 (dd + 1) (quadTL r) [] it
          (by rw [hx, hy]; exact hTL)]
        simp only [Bool.false_eq_true, if_false]
        rw [htr, insertF_leaf_reject o f3 (dd + 1) (quadTR r) [] it
          (by rw [hx, hy]; exact hTR)]
        simp only [Bool.false_eq_true, if_false]
        rw [hbl, insertF_leaf_reject o f3 (dd + 1) (quadBL r) [] it
          (by rw [hx, hy]; exact hBL)]
        simp only [Bool.false_eq_true, if_false]
        rw [hchEq]
        refine ⟨.innerN r dd [] (.leafN (quadTL r) (dd + 1) [])
          (.leafN (quadTR r) (dd + 1) []) (.leafN (quadBL r) (dd + 1) []) child',
          by simp, ?_, rfl⟩
        exact ⟨rfl, rfl, hdlt, hc,
          Or.inr (Or.inr (Or.inr ⟨hq, rfl, rfl, rfl, by rw [hchR, hrbr], hchP⟩))⟩

/-- All stored node depths in a subtree are bounded by `D`. -/
def depthsLe (D : ℕ) : Node → Prop
  | .leafN _ dd _ => dd ≤ D
  | .innerN _ dd _ tl tr bl br =>
    dd ≤ D ∧ depthsLe D tl ∧ depthsLe D tr ∧ depthsLe D bl ∧ depthsLe D br

/-- The nodes of a subtree holding a nonempty item list, with their
rectangle, stored depth and item list, in tree order. -/
def itemNodes : Node → List (Rect × ℕ × List Item)
  | .leafN r dd its => if its = [] then [] else [(r, dd, its)]
  | .innerN r dd its tl tr bl br =>
    (if its = [] then [] else [(r, dd, its)]) ++
      itemNodes tl ++ itemNodes tr ++ itemNodes bl ++ itemNodes br

/-- A chain tree rooted at depth `d ≤ max_depth` has all stored depths
bounded by `max_depth`. -/
theorem chain_depthsLe (o : Opts) (qx qy : ℚ) :
    ∀ (n : Node) (d : ℕ) (its0 : List Item), ChainP o qx qy d n its0 →
      d ≤ o.max_depth → depthsLe o.max_depth n := by
  intro n
  induction n with
  | leafN r dd its =>
    intro d its0 hch hd
    rw [depthsLe]
    rw [hch.1]
    exact hd
  | innerN r dd its tl tr bl br ihtl ihtr ihbl ihbr =>
    intro d its0 hch hd
    obtain ⟨hdd, -, hdlt, -, hdisj⟩ := hch
    subst hdd
    rcases hdisj with ⟨-, -, hcP, htr, hbl, hbr⟩ | ⟨-, htl, -, hcP, hbl, hbr⟩ |
      ⟨-, htl, htr, -, hcP, hbr⟩ | ⟨-, htl, htr, hbl, -, hcP⟩ <;>
      subst_vars <;>
      refine ⟨by omega, ?_, ?_, ?_, ?_⟩ <;>
      first
        | exact ihtl _ _ hcP (by omega)
        | exact ihtr _ _ hcP (by omega)
        | exact ihbl _ _ hcP (by omega)
        | exact ihbr _ _ hcP (by omega)
        | (rw [depthsLe]; omega)

/-- A chain tree holds all its items in a single node: the one accumulating
leaf, whose depth is at most `max_depth`. -/
theorem chain_itemNodes (o : Opts) (qx qy : ℚ) :
    ∀ (n : Node) (d : ℕ) (its0 : List Item), ChainP o qx qy d n its0 →
      d ≤ o.max_depth →
      (its0 = [] → itemNodes n = []) ∧
      (its0 ≠ [] → ∃ rl dl, dl ≤ o.max_depth ∧ itemNodes n = [(rl, dl, its0)]) := by
  intro n
  induction n with
  | leafN r dd its =>
    intro d its0 hch hd
    obtain ⟨hdd, hits, -, -, -⟩ := hch
    subst hdd
    subst hits
    constructor
    · intro h0
      rw [itemNodes, if_pos h0]
    · intro h0
      exact ⟨r, dd, hd, by rw [itemNodes, if_neg h0]⟩
  | innerN r dd its tl tr bl br ihtl ihtr ihbl ihbr =>
    intro d its0 hch hd
    obtain ⟨hdd, hits, hdlt, -, hdisj⟩ := hch
    subst hdd
    subst hits
    rcases hdisj with ⟨-, -, hcP, htr, hbl, hbr⟩ | ⟨-, htl, -, hcP, hbl, hbr⟩ |
      ⟨-, htl, htr, -, hcP, hbr⟩ | ⟨-, htl, htr, hbl, -, hcP⟩ <;>
      subst_vars <;>
      constructor <;>
      intro h0
    · obtain ⟨he, -⟩ := ihtl _ _ hcP (by omega)
      simp [itemNodes, he h0]
    · obtain ⟨-, hne⟩ := ihtl _ _ hcP (by omega)
      obtain ⟨rl, dl, hdl, he⟩ := hne h0
      exact ⟨rl, dl, hdl, by simp [itemNodes, he]⟩
    · obtain ⟨he, -⟩ := ihtr _ _ hcP (by omega)
      simp [itemNodes, he h0]
    · obtain ⟨-, hne⟩ := ihtr _ _ hcP (by omega)
      obtain ⟨rl, dl, hdl, he⟩ := hne h0
      exact ⟨rl, dl, hdl, by simp [itemNodes, he]⟩
    · obtain ⟨he, -⟩ := ihbl _ _ hcP (by omega)
      simp [itemNodes, he h0]
    · obtain ⟨-, hne⟩ := ihbl _ _ hcP (by omega)
      obtain ⟨rl, dl, hdl, he⟩ := hne h0
      exact ⟨rl, dl, hdl, by simp [itemNodes, he]⟩
    · obtain ⟨he, -⟩ := ihbr _ _ hcP (by omega)
      simp [itemNodes, he h0]
    · obtain ⟨-, hne⟩ := ihbr _ _ hcP (by omega)
      obtain ⟨rl, dl, hdl, he⟩ := hne h0
      exact ⟨rl, dl, hdl, by simp [itemNodes, he]⟩

/-- Running a sequence of coincident single-item inserts preserves the
chain shape, appending the wrapped items in order. -/
theorem chain_run (o : Opts) (qx qy : ℚ) :
    ∀ (cnt : ℕ) (s : QTState) (its0 : List Item),
      s.opts = o → ChainP o qx qy 0 s.tree its0 →
      ∃ t', runInserts s (List.replicate cnt ⟨some qx, some qy⟩) =
          .ok ⟨o, t', s.allItems ++ List.replicate cnt ⟨some qx, some qy⟩⟩ ∧
        ChainP o qx qy 0 t'
          (its0 ++ wrappedFrom s.allItems.length (List.replicate cnt ⟨some qx, some qy⟩)) := by
  intro cnt
  induction cnt with
  | zero =>
    intro s its0 hso hch
    refine ⟨s.tree, ?_, ?_⟩
    · rw [List.replicate, runInserts, List.append_nil, ← hso]
    · rw [List.replicate, wrappedFrom, List.append_nil]
      exact hch
  | succ cnt ihc =>
    intro s its0 hso hch
    obtain ⟨t2, hins, hchP, -⟩ := chain_insert o qx qy o.max_depth 0 s.tree its0
      (topFuel o) ⟨some qx, some qy, s.allItems.length⟩ rfl rfl (by omega) hch
      (thr_zero_le_topFuel o)
    have hstep : qtInsert s (.one ⟨some qx, some qy⟩) =
        .ok { s with tree := t2, allItems := s.allItems ++ [⟨some qx, some qy⟩] } := by
      rw [qtInsert]
      simp only [checkIsValid, Option.isSome_some, Bool.and_self, if_true, hso,
        itemToIndex, hins, Bind.bind, Except.bind]
      simp
    obtain ⟨t', hrun, hchP'⟩ := ihc
      { s with tree := t2, allItems := s.allItems ++ [⟨some qx, some qy⟩] }
      (its0 ++ [⟨some qx, some qy, s.allItems.length⟩]) (by simp [hso]) hchP
    refine ⟨t', ?_, ?_⟩
    · rw [show List.replicate (cnt + 1) (⟨some qx, some qy⟩ : RawItem) =
        ⟨some qx, some qy⟩ :: List.replicate cnt ⟨some qx, some qy⟩ from rfl]
      rw [runInserts, hstep]
      simp only at hrun ⊢
      rw [hrun]
      simp
    · rw [show List.replicate (cnt + 1) (⟨some qx, some qy⟩ : RawItem) =
        ⟨some qx, some qy⟩ :: List.replicate cnt ⟨some qx, some qy⟩ from rfl]
      rw [wrappedFrom]
      simp only [List.length_append, List.length_singleton] at hchP'
      rw [List.append_assoc] at hchP'
      simp only [List.singleton_append] at hchP'
      exact hchP'

/-- C6: inserting any number of items with identical coordinates (inside the
root rectangle) into a fresh index never creates a node with stored depth
greater than `max_depth`; all the wrapped items accumulate, in insertion
order, in one single leaf (every other node's item list is empty), whose
depth is at most `max_depth`; and a leaf whose depth has reached `max_depth`
never splits again — any further in-bounds item is simply appended to its
item list. -/
theorem c6_depth_cap_single_leaf (io : InitOptions) (qx qy : ℚ) (cnt : ℕ)
    (hin : contP (initOpts io).rect (some qx) (some qy) = true) :
    ∃ t', runInserts (initState io) (List.replicate cnt ⟨some qx, some qy⟩) =
        .ok ⟨initOpts io, t', List.replicate cnt ⟨some qx, some qy⟩⟩ ∧
      depthsLe (initOpts io).max_depth t' ∧
      (cnt = 0 ∨ ∃ rl dl, dl ≤ (initOpts io).max_depth ∧
        itemNodes t' = [(rl, dl, wrappedFrom 0 (List.replicate cnt ⟨some qx, some qy⟩))]) ∧
      (∀ (fuel dd : ℕ) (r : Rect) (its : List Item) (it2 : Item),
        (initOpts io).max_depth ≤ dd → contP r it2.x it2.y = true →
        insertF (initOpts io) (fuel + 1) (.leafN r dd its) it2 =
          .ok (.leafN r dd (its ++ [it2]), true)) := by
  have hch0 : ChainP (initOpts io) qx qy 0 (rootNode (initOpts io)) [] :=
    ⟨rfl, rfl, hin, fun x hx => absurd hx (List.not_mem_nil x), Or.inl (Nat.zero_le _)⟩
  obtain ⟨t', hrun, hchP⟩ := chain_run (initOpts io) qx qy cnt (initState io) [] rfl hch0
  simp only [List.nil_append, initState] at hrun hchP
  refine ⟨t', hrun, ?_, ?_, ?_⟩
  · exact chain_depthsLe (initOpts io) qx qy t' 0 _ hchP (Nat.zero_le _)
  · cases cnt with
    | zero => exact Or.inl rfl
    | succ m =>
      right
      obtain ⟨-, hne⟩ := chain_itemNodes (initOpts io) qx qy t' 0 _ hchP (Nat.zero_le _)
      exact hne (by rw [List.replicate, wrappedFrom]; exact List.cons_ne_nil _ _)
  · intro fuel dd r its it2 hdm hcit
    exact insertF_leaf_push (initOpts io) fuel dd r its it2 hcit (Or.inr hdm)

/-- Witness for C6 at a concrete input: five coincident points at (1,1). -/
theorem c6_witness :
    contP (initOpts exOptions).rect (some 1) (some 1) = true ∧
    (∃ t', runInserts (initState exOptions) (List.replicate 5 ⟨some 1, some 1⟩) =
        .ok ⟨initOpts exOptions, t', List.replicate 5 ⟨some 1, some 1⟩⟩ ∧
      depthsLe (initOpts exOptions).max_depth t' ∧
      (5 = 0 ∨ ∃ rl dl, dl ≤ (initOpts exOptions).max_depth ∧
        itemNodes t' = [(rl, dl, wrappedFrom 0 (List.replicate 5 ⟨some 1, some 1⟩))]) ∧
      (∀ (fuel dd : ℕ) (r : Rect) (its : List Item) (it2 : Item),
        (initOpts exOptions).max_depth ≤ dd → contP r it2.x it2.y = true →
        insertF (initOpts exOptions) (fuel + 1) (.leafN r dd its) it2 =
          .ok (.leafN r dd (its ++ [it2]), true))) :=
  ⟨by decide, c6_depth_cap_single_leaf exOptions 1 1 5 (by decide)⟩

/-! C1: `clear` and index shifting.  After `clear` the backing store still
holds the old items, but every index the tree will ever store from now on is
offset by the old length; shifting commutes with all operations, so the
cleared index is observationally equivalent to a fresh one. -/

/-- Shift a wrapped item's backing-store index by `k`. -/
def shiftItem (k : ℕ) (it : Item) : Item :=
  ⟨it.x, it.y, it.i + k⟩

/-- Shift every backing-store index in a subtree by `k`. -/
def shiftN (k : ℕ) : Node → Node
  | .leafN r d its => .leafN r d (its.map (shiftItem k))
  | .innerN r d its tl tr bl br =>
    .innerN r d (its.map (shiftItem k)) (shiftN k tl) (shiftN k tr) (shiftN k bl)
      (shiftN k br)

/-- Shift all four children. -/
def shiftKids (k : ℕ) (ks : Kids) : Kids :=
  (shiftN k ks.1, shiftN k ks.2.1, shiftN k ks.2.2.1, shiftN k ks.2.2.2)

/-- Shifting preserves a node's rectangle. -/
theorem shiftN_rect (k : ℕ) (n : Node) : (shiftN k n).rect = n.rect := by
  cases n <;> rfl

/-- `insertF` commutes with index shifting. -/
def InsShift (o : Opts) (k fuel : ℕ) : Prop :=
  ∀ n it, insertF o fuel (shiftN k n) (shiftItem k it) =
    (insertF o fuel n it).map (fun p => (shiftN k p.1, p.2))

/-- `tryKidsF` commutes with index shifting. -/
def KidsShift (o : Opts) (k fuel : ℕ) : Prop :=
  ∀ ks it, tryKidsF o fuel (shiftKids k ks) (shiftItem k it) =
    (tryKidsF o fuel ks it).map (fun p => (shiftKids k p.1, p.2))

/-- `redistF` commutes with index shifting. -/
def RedShift (o : Opts) (k fuel : ℕ) : Prop :=
  ∀ r its ks, redistF o fuel r (its.map (shiftItem k)) (shiftKids k ks) =
    (redistF o fuel r its ks).map (shiftKids k)

/-- Step lemma for `KidsShift`. -/
theorem kidsShift_step (o : Opts) (k fuel : ℕ) (ih : InsShift o k fuel) :
    KidsShift o k (fuel + 1) := by
  intro ks it
  rcases ks with ⟨tl, tr, bl, br⟩
  rw [shiftKids, tryKidsF, tryKidsF]
  simp only [Bind.bind, Except.bind, ih tl it]
  cases h1 : insertF o fuel tl it with
  | error e => rfl
  | ok p1 =>
    rcases p1 with ⟨tl2, b1⟩
    simp only [Except.map]
    cases b1 with
    | true => rfl
    | false =>
      simp only [Bool.false_eq_true, if_false, ih tr it]
      cases h2 : insertF o fuel tr it with
      | error e => rfl
      | ok p2 =>
        rcases p2 with ⟨tr2, b2⟩
        simp only [Except.map]
        cases b2 with
        | true => rfl
        | false =>
          simp only [Bool.false_eq_true, if_false, ih bl it]
          cases h3 : insertF o fuel bl it with
          | error e => rfl
          | ok p3 =>
            rcases p3 with ⟨bl2, b3⟩
            simp only [Except.map]
            cases b3 with
            | true => rfl
            | false =>
              simp only [Bool.false_eq_true, if_false, ih br it]
              cases h4 : insertF o fuel br it with
              | error e => rfl
              | ok p4 => rfl

/-- Step lemma for `RedShift`. -/
theorem redShift_step (o : Opts) (k fuel : ℕ) (ihK : KidsShift o k fuel)
    (ihR : RedShift o k fuel) : RedShift o k (fuel + 1) := by
  intro r its ks
  cases its with
  | nil =>
    rw [List.map_nil, redistF, redistF]
    rfl
  | cons itm rest =>
    rw [List.map_cons, redistF, redistF]
    have hcsame : contP r (shiftItem k itm).x (shiftItem k itm).y = contP r itm.x itm.y := rfl
    rw [hcsame]
    by_cases hcm : contP r itm.x itm.y = true
    · rw [if_pos hcm, if_pos hcm]
      simp only [Bind.bind, Except.bind, ihK ks itm]
      cases h1 : tryKidsF o fuel ks itm with
      | error e => rfl
      | ok p1 =>
        rcases p1 with ⟨ks2, b⟩
        simp only [Except.map]
        cases b with
        | false =>
          cases hdbg : o.debug_mode with
          | true => rfl
          | false =>
            simp only [hdbg, Bool.false_eq_true, false_and, if_false]
            exact ihR r rest ks2
        | true =>
          simp only [Bool.true_eq_false, and_false, if_false]
          exact ihR r rest ks2
    · rw [if_neg hcm, if_neg hcm]
      cases hdbg : o.debug_mode with
      | true => rfl
      | false =>
        simp only [hdbg, Bool.false_eq_true, if_false]
        exact ihR r rest ks

/-- Step lemma for `InsShift`. -/
theorem insShift_step (o : Opts) (k fuel : ℕ) (ihK : KidsShift o k fuel)
    (ihR : RedShift o k fuel) : InsShift o k (fuel + 1) := by
  intro n it
  cases n with
  | leafN r d its =>
    rw [shiftN, insertF, insertF]
    have hcsame : contP r (shiftItem k it).x (shiftItem k it).y = contP r it.x it.y := rfl
    rw [hcsame]
    by_cases hcm : contP r it.x it.y = true
    · rw [if_pos hcm, if_pos hcm]
      rw [List.length_map]
      by_cases hroom : its.length < o.max_per_cell ∨ o.max_depth ≤ d
      · rw [if_pos hroom, if_pos hroom]
        simp only [Except.map, shiftN, List.map_append, List.map_cons, List.map_nil]
      · rw [if_neg hroom, if_neg hroom]
        simp only [Bind.bind, Except.bind]
        have hfresh : (Node.leafN (quadTL r) (d + 1) ([] : List Item),
            Node.leafN (quadTR r) (d + 1) ([] : List Item),
            Node.leafN (quadBL r) (d + 1) ([] : List Item),
            Node.leafN (quadBR r) (d + 1) ([] : List Item)) =
            shiftKids k (Node.leafN (quadTL r) (d + 1) [], Node.leafN (quadTR r) (d + 1) [],
              Node.leafN (quadBL r) (d + 1) [], Node.leafN (quadBR r) (d + 1) []) := by
          simp [shiftKids, shiftN]
        nth_rewrite 1 [hfresh]
        rw [ihR r its _]
        cases h1 : redistF o fuel r its (Node.leafN (quadTL r) (d + 1) [],
            Node.leafN (quadTR r) (d + 1) [], Node.leafN (quadBL r) (d + 1) [],
            Node.leafN (quadBR r) (d + 1) []) with
        | error e => rfl
        | ok ks =>
          simp only [Except.map]
          rw [if_pos hcm, if_pos hcm]
          simp only [Bind.bind, Except.bind, ihK ks it]
          cases h2 : tryKidsF o fuel ks it with
          | error e => rfl
          | ok p2 =>
            rcases p2 with ⟨ks2, b⟩
            simp only [Except.map]
            cases b with
            | false =>
              cases hdbg : o.debug_mode with
              | true => rfl
              | false =>
                simp only [hdbg, Bool.false_eq_true, false_and, if_false]
                simp [shiftN, shiftKids]
            | true =>
              simp only [Bool.true_eq_false, and_false, if_false]
              simp [shiftN, shiftKids]
    · rw [if_neg hcm, if_neg hcm]
      simp only [Except.map, shiftN]
  | innerN r d its tl tr bl br =>
    rw [shiftN, insertF, insertF]
    have hcsame : contP r (shiftItem k it).x (shiftItem k it).y = contP r it.x it.y := rfl
    rw [hcsame]
    by_cases hcm : contP r it.x it.y = true
    · rw [if_pos hcm, if_pos hcm]
      simp only [Bind.bind, Except.bind]
      have hks : (shiftN k tl, shiftN k tr, shiftN k bl, shiftN k br) =
          shiftKids k (tl, tr, bl, br) := rfl
      rw [hks, ihK (tl, tr, bl, br) it]
      cases h2 : tryKidsF o fuel (tl, tr, bl, br) it with
      | error e => rfl
      | ok p2 =>
        rcases p2 with ⟨ks2, b⟩
        simp only [Except.map]
        cases b with
        | false =>
          cases hdbg : o.debug_mode with
          | true => rfl
          | false =>
            simp only [hdbg, Bool.false_eq_true, false_and, if_false]
            simp [shiftN, shiftKids]
        | true =>
          simp only [Bool.true_eq_false, and_false, if_false]
          simp [shiftN, shiftKids]
    · rw [if_neg hcm, if_neg hcm]
      simp only [Except.map, shiftN]

/-- All three shift commutation properties hold at every fuel. -/
theorem shift_all (o : Opts) (k : ℕ) :
    ∀ fuel, InsShift o k fuel ∧ KidsShift o k fuel ∧ RedShift o k fuel := by
  intro fuel
  induction fuel with
  | zero =>
    refine ⟨fun n it => rfl, fun ks it => rfl, fun r its ks => ?_⟩
    cases its <;> rfl
  | succ fuel ih =>
    exact ⟨insShift_step o k fuel ih.2.1 ih.2.2, kidsShift_step o k fuel ih.1,
      redShift_step o k fuel ih.2.1 ih.2.2⟩

/-- `storeAdd` commutes with shifting every stored index by `k`. -/
theorem storeAdd_shift (k i : ℕ) (st : List ℕ) :
    storeAdd (i + k) (st.map (fun j => j + k)) = (storeAdd i st).map (fun j => j + k) := by
  induction st with
  | nil => rfl
  | cons j rest ih =>
    rw [List.map_cons, storeAdd, storeAdd]
    by_cases h1 : i = j
    · rw [if_pos (by omega), if_pos h1, List.map_cons]
    · rw [if_neg (by omega), if_neg h1]
      by_cases h2 : i < j
      · rw [if_pos (by omega), if_pos h2, List.map_cons, List.map_cons]
      · rw [if_neg (by omega), if_neg h2, List.map_cons, ih]

/-- The item-collection loop of `queryRange` commutes with shifting. -/
theorem collectItems_shift (k : ℕ) (its : List Item) (t l b r : ℚ) (st : List ℕ) :
    collectItems (its.map (shiftItem k)) t l b r (st.map (fun j => j + k)) =
      (collectItems its t l b r st).map (fun j => j + k) := by
  induction its generalizing st with
  | nil => rfl
  | cons itm rest ih =>
    simp only [List.map_cons, collectItems, List.foldl_cons] at ih ⊢
    have hpt : pointIsInBounds (shiftItem k itm).x (shiftItem k itm).y t l b r =
        pointIsInBounds itm.x itm.y t l b r := rfl
    rw [hpt]
    by_cases h : pointIsInBounds itm.x itm.y t l b r = true
    · rw [if_pos h, if_pos h]
      have hi : (shiftItem k itm).i = itm.i + k := rfl
      rw [hi, storeAdd_shift]
      exact ih (storeAdd itm.i st)
    · rw [if_neg h, if_neg h]
      exact ih st

/-- `Node.queryRange` commutes with shifting every index by `k`. -/
theorem queryRange_shift (k : ℕ) (n : Node) (t l b r : ℚ) :
    ∀ st, (shiftN k n).queryRange t l b r (st.map (fun j => j + k)) =
      (n.queryRange t l b r st).map (fun j => j + k) := by
  induction n with
  | leafN rc d its =>
    intro st
    rw [shiftN, Node.queryRange, Node.queryRange]
    by_cases h : rangesIntersect t l b r rc.top rc.left rc.bottom rc.right = true
    · rw [if_pos h, if_pos h]
      exact collectItems_shift k its t l b r st
    · rw [if_neg h, if_neg h]
  | innerN rc d its tl tr bl br ihtl ihtr ihbl ihbr =>
    intro st
    rw [shiftN, Node.queryRange, Node.queryRange]
    by_cases h : rangesIntersect t l b r rc.top rc.left rc.bottom rc.right = true
    · rw [if_pos h, if_pos h]
      simp only
      rw [ihtl st, ihtr _, ihbl _, ihbr _]
      exact collectItems_shift k its t l b r _
    · rw [if_neg h, if_neg h]

/-- Dereferencing shifted indices against a store extended with a stale
prefix reads exactly the same items. -/
theorem itemsByIndex_shift (pre al : List RawItem) (st : List ℕ) :
    itemsByIndex (pre ++ al) (st.map (fun j => j + pre.length)) = itemsByIndex al st := by
  induction st with
  | nil => rfl
  | cons i rest ih =>
    simp only [itemsByIndex, List.map_cons, List.map_map] at ih ⊢
    refine congrArg₂ _ ?_ ih
    show (pre ++ al).get? (i + pre.length) = al.get? i
    rw [List.get?_append_right (Nat.le_add_left _ _)]
    congr 1
    omega

/-- One public operation of the quadtree API, used to state observational
equivalence of index states. -/
inductive Op where
  | insOne (it : RawItem)
  | insMany (l : List RawItem)
  | clearOp
  | qRange (top left bottom right : ℚ)
  | qCenter (x y w h : ℚ)
  | qContained (obj : CenterQuery)
  deriving DecidableEq, Repr

/-- Apply one public operation: the next state together with the
operation's observable output (query results; insert and clear produce no
output). -/
def applyOp (s : QTState) : Op → Except String (QTState × List (Option RawItem))
  | .insOne it => (qtInsert s (.one it)).map (fun s2 => (s2, []))
  | .insMany l => (qtInsert s (.many l)).map (fun s2 => (s2, []))
  | .clearOp => .ok (qtClear s, [])
  | .qRange t l b r => (qtQueryRange s t l b r).map (fun out => (s, out))
  | .qCenter x y w h => (qtQueryRangeByCenter s x y w h).map (fun out => (s, out))
  | .qContained obj => (qtQueryContainedBy s obj).map (fun out => (s, out))

/-- The observable trace of running a list of operations from a state. -/
def runOuts (s : QTState) : List Op → Except String (List (List (Option RawItem)))
  | [] => .ok []
  | op :: rest =>
    match applyOp s op with
    | .error e => .error e
    | .ok (s2, out) => (runOuts s2 rest).map (fun outs => out :: outs)

/-- A state whose backing store carries a stale prefix `pre` and whose tree
indices are all offset past it. -/
def shiftState (pre : List RawItem) (s : QTState) : QTState :=
  ⟨s.opts, shiftN pre.length s.tree, pre ++ s.allItems⟩

/-- The array-insert loop commutes with shifting when the base index is
moved past the stale prefix. -/
theorem insertLoop_shift (o : Opts) (k base : ℕ) (l : List RawItem) :
    ∀ t j, insertLoop o (k + base) (shiftN k t) l j =
      (insertLoop o base t l j).map (shiftN k) := by
  induction l with
  | nil => intro t j; rfl
  | cons cur rest ih =>
    intro t j
    rw [insertLoop, insertLoop]
    simp only [Bind.bind, Except.bind]
    have hitem : itemToIndex cur (k + base + j) = shiftItem k (itemToIndex cur (base + j)) := by
      simp only [itemToIndex, shiftItem, Item.mk.injEq, true_and]
      omega
    rw [hitem, (shift_all o k (topFuel o)).1 t (itemToIndex cur (base + j))]
    cases h1 : insertF o (topFuel o) t (itemToIndex cur (base + j)) with
    | error e => rfl
    | ok p =>
      rcases p with ⟨t2, res⟩
      simp only [Except.map]
      by_cases hd : o.debug_mode = true ∧ res = false
      · rw [if_pos hd, if_pos hd]
      · rw [if_neg hd, if_neg hd]
        exact ih t2 (j + 1)

/-- Each public operation on a state carrying a stale shifted prefix
simulates the same operation on the unshifted state, with identical
observable output. -/
theorem applyOp_shift (pre : List RawItem) (s : QTState) (op : Op) :
    applyOp (shiftState pre s) op =
      (applyOp s op).map (fun p => (shiftState pre p.1, p.2)) := by
  cases op with
  | insOne it =>
    simp only [applyOp, qtInsert, shiftState]
    by_cases hv : checkIsValid it = true
    · rw [if_pos hv, if_pos hv]
      simp only [Bind.bind, Except.bind, List.length_append]
      have hitem : itemToIndex it (pre.length + s.allItems.length) =
          shiftItem pre.length (itemToIndex it s.allItems.length) := by
        simp only [itemToIndex, shiftItem, Item.mk.injEq, true_and]
        omega
      rw [hitem, (shift_all s.opts pre.length (topFuel s.opts)).1 s.tree _]
      cases h1 : insertF s.opts (topFuel s.opts) s.tree (itemToIndex it s.allItems.length) with
      | error e => rfl
      | ok p =>
        rcases p with ⟨t2, res⟩
        simp only [Except.map]
        by_cases hd : s.opts.debug_mode = true ∧ res = false
        · rw [if_pos hd, if_pos hd]
        · rw [if_neg hd, if_neg hd]
          simp [shiftState, List.append_assoc]
    · rw [if_neg hv, if_neg hv]
      by_cases hd : s.opts.debug_mode = true
      · rw [if_pos hd, if_pos hd]
        rfl
      · rw [if_neg hd, if_neg hd]
        rfl
  | insMany l =>
    cases l with
    | nil => rfl
    | cons it0 rest =>
      simp only [applyOp, qtInsert, shiftState]
      by_cases hv : checkIsValid it0 = true
      · rw [if_pos hv, if_pos hv]
        simp only [Bind.bind, Except.bind, List.length_append]
        rw [insertLoop_shift s.opts pre.length s.allItems.length (it0 :: rest) s.tree 0]
        cases h1 : insertLoop s.opts s.allItems.length s.tree (it0 :: rest) 0 with
        | error e => rfl
        | ok t2 =>
          simp [shiftState, Except.map, List.append_assoc]
      · rw [if_neg hv, if_neg hv]
        by_cases hd : s.opts.debug_mode = true
        · rw [if_pos hd, if_pos hd]
          rfl
        · rw [if_neg hd, if_neg hd]
          rfl
  | clearOp => rfl
  | qRange t l b r =>
    have hq := queryRange_shift pre.length s.tree t l b r []
    rw [List.map_nil] at hq
    simp [applyOp, qtQueryRange, isNumber, shiftState, hq, itemsByIndex_shift, Except.map]
  | qCenter x y w h =>
    have hq := queryRange_shift pre.length s.tree (y - h / 2) (x - w / 2) (y + h / 2)
      (x + w / 2) []
    rw [List.map_nil] at hq
    simp [applyOp, qtQueryRangeByCenter, isNumber, shiftState, hq, itemsByIndex_shift,
      Except.map]
  | qContained obj =>
    simp only [applyOp, qtQueryContainedBy, shiftState]
    by_cases hv : (isNumberOpt obj.x && isNumberOpt obj.y && isNumberOpt obj.w &&
        isNumberOpt obj.h) = true
    · rw [if_pos hv, if_pos hv]
      have hq := queryRange_shift pre.length s.tree
        (obj.y.getD 0 - obj.h.getD 0 / 2) (obj.x.getD 0 - obj.w.getD 0 / 2)
        (obj.y.getD 0 + obj.h.getD 0 / 2) (obj.x.getD 0 + obj.w.getD 0 / 2) []
      rw [List.map_nil] at hq
      simp only [Except.map]
      rw [hq, itemsByIndex_shift]
    · rw [if_neg hv, if_neg hv]
      by_cases hd : s.opts.debug_mode = true
      · rw [if_pos hd]
        rfl
      · rw [if_neg hd]
        rfl

/-- Running any operation sequence from a state with a stale shifted prefix
produces exactly the observable trace of the unshifted state. -/
theorem runOuts_shift (pre : List RawItem) (ops : List Op) :
    ∀ s, runOuts (shiftState pre s) ops = runOuts s ops := by
  induction ops with
  | nil => intro s; rfl
  | cons op rest ih =>
    intro s
    rw [runOuts, runOuts, applyOp_shift]
    cases h : applyOp s op with
    | error e => rfl
    | ok p =>
      rcases p with ⟨s2, out⟩
      simp only [Except.map]
      rw [ih s2]

/-- A brand-new `quadtree(options)` instance whose options reproduce an
already-resolved `opts` record. -/
def freshFrom (o : Opts) : QTState :=
  initState ⟨o.top, o.left, o.bottom, o.right, some o.max_per_cell, some o.max_depth,
    some o.debug_mode⟩

/-- Constructing afresh from resolved options applies the same `||`
re-defaulting that `clear`'s `init(opts)` call applies. -/
theorem freshFrom_eq (o : Opts) :
    freshFrom o = ⟨redefault o, rootNode (redefault o), []⟩ := by
  have ho : initOpts ⟨o.top, o.left, o.bottom, o.right, some o.max_per_cell,
      some o.max_depth, some o.debug_mode⟩ = redefault o := by
    cases hb : o.debug_mode <;>
      simp [initOpts, redefault, orDefault, hb]
  simp [freshFrom, initState, ho]

/-- `clear` leaves exactly a fresh state prefixed by the stale backing
store, with the (empty) fresh tree's indices shifted past it. -/
theorem qtClear_eq_shift (s : QTState) :
    qtClear s = shiftState s.allItems (freshFrom s.opts) := by
  rw [freshFrom_eq]
  simp [qtClear, shiftState, shiftN, rootNode]

/-- C1 (amended): `clear()` discards the current root Node and re-derives
`opts` from the stored configuration, but it does NOT discard the backing
store — the old items remain in `allItems`.  Nevertheless the resulting
index is observationally equivalent to a freshly constructed index with the
same options: every subsequent sequence of public operations (insert of a
single item or an array, clear, queryRange, queryRangeByCenter,
queryContainedBy) produces the identical observable trace — the same query
results and the same errors — because every index the cleared tree will
ever store is offset past the stale backing-store entries. -/
theorem c1_clear_equiv_fresh (s : QTState) (ops : List Op) :
    runOuts (qtClear s) ops = runOuts (freshFrom s.opts) ops := by
  rw [qtClear_eq_shift, runOuts_shift]
